import Mathlib

/-!
Verification development for the tokenn repository (codeparser + codereview).

Strings are modelled as lists of characters (`Str`). Python string
operations used by the code (`splitlines`, `strip`, `split('\n')`,
`startswith`, `endswith`, slicing, `'\n'.join`) are embedded below.
`splitlines` is modelled for the terminators '\n', '\r\n' and '\r';
`strip` is modelled for ASCII whitespace.  The sha256 hashing used by
the fingerprinter is an external library call and is abstracted as a
function parameter.
-/

abbrev Str := List Char

/-- Shorthand turning a Lean string literal into the `Str` model. -/
def S (s : String) : Str := s.data

/-- ASCII whitespace, as stripped by Python str.strip(). -/
def isWS (c : Char) : Bool :=
  c = ' ' || c = '\t' || c = '\n' || c = '\r' || c = '\x0b' || c = '\x0c'

/-- Python-style lstrip with an arbitrary character predicate. -/
def lstripP (p : Char → Bool) (s : Str) : Str := s.dropWhile p

/-- Python-style rstrip with an arbitrary character predicate. -/
def rstripP (p : Char → Bool) (s : Str) : Str := (s.reverse.dropWhile p).reverse

/-- Python-style strip with an arbitrary character predicate. -/
def stripP (p : Char → Bool) (s : Str) : Str := lstripP p (rstripP p s)

/-- Python str.strip() (whitespace). -/
def stripStr (s : Str) : Str := stripP isWS s

/-- Python str.strip('\n') as used on the code-only input. -/
def stripNl (s : Str) : Str := stripP (fun c => c = '\n') s

/-- Normalization of the line terminators handled by the splitlines model:
'\r\n' and a lone '\r' become '\n'. -/
def normCR : Str → Str
  | [] => []
  | c :: rest =>
    if c ≠ '\r' then c :: normCR rest
    else match rest with
      | '\n' :: rest2 => '\n' :: normCR rest2
      | rst => '\n' :: normCR rst

/-- Python str.split('\n') (keeps empty pieces, [''] on empty input). -/
def splitNl (s : Str) : List Str := s.splitOn '\n'

/-- Python str.splitlines(), modelled for the terminators '\n', '\r\n' and
'\r': split at terminators, where a trailing terminator does not open an
empty final line and the empty string has no lines. -/
def splitlines (s : Str) : List Str :=
  let parts := splitNl (normCR s)
  if s = [] then []
  else if parts.getLast? = some [] then parts.dropLast else parts

/-- Python '\n'.join(lines), used to reassemble sources. -/
def joinNL (ls : List Str) : Str := List.intercalate ['\n'] ls

/-- Python substring containment (the `in` operator on strings). -/
def isSubstr (a b : Str) : Bool := decide (a <:+: b)

/-- Comment-syntax metadata of one language (TheParser subclasses override
the three accessors; empty string means the form is unsupported). -/
structure Cfg where
  linePre : Str
  blockPre : Str
  blockSuf : Str
deriving DecidableEq

/-- TheParser.block_comment with force=True (no line-comment fallback). -/
def block_commentT (cfg : Cfg) (comment tag : Str) : Except Str (Option Str) :=
  if Cfg.blockPre cfg = [] then .ok none
  else if isSubstr (Cfg.blockSuf cfg) comment then
    .error (S "Block comment suffix found in comment")
  else
    let sp : Str := if ('\n' ∈ comment) then ['\n'] else [' ']
    .ok (some (Cfg.blockPre cfg ++ tag ++ sp ++ comment ++ sp ++ Cfg.blockSuf cfg))

/-- Rendering step of TheParser.line_comment: prefix every non-blank line. -/
def lineCommentRender (cfg : Cfg) (comment tag : Str) : Str :=
  joinNL ((splitNl comment).map
    (fun l => if stripStr l ≠ [] then Cfg.linePre cfg ++ tag ++ ' ' :: l else l))

/-- TheParser.line_comment with force=True (no block-comment fallback). -/
def line_commentT (cfg : Cfg) (comment tag : Str) : Except Str (Option Str) :=
  if Cfg.linePre cfg = [] then .ok none
  else .ok (some (lineCommentRender cfg comment tag))

/-- TheParser.line_comment (force=False): falls back to block form when the
language has no line comments. -/
def line_comment (cfg : Cfg) (comment tag : Str) : Except Str (Option Str) :=
  if Cfg.linePre cfg = [] then block_commentT cfg comment tag
  else .ok (some (lineCommentRender cfg comment tag))

/-- TheParser.block_comment (force=False): falls back to line form when the
language has no block comments. -/
def block_comment (cfg : Cfg) (comment tag : Str) : Except Str (Option Str) :=
  if Cfg.blockPre cfg = [] then line_commentT cfg comment tag
  else if isSubstr (Cfg.blockSuf cfg) comment then
    .error (S "Block comment suffix found in comment")
  else
    let sp : Str := if ('\n' ∈ comment) then ['\n'] else [' ']
    .ok (some (Cfg.blockPre cfg ++ tag ++ sp ++ comment ++ sp ++ Cfg.blockSuf cfg))

/-- Python int rendering for error messages. -/
def intStr (i : Int) : Str :=
  if i < 0 then '-' :: Nat.toDigits 10 (-i).toNat else Nat.toDigits 10 i.toNat

/-- TheParser.insert_comment: insert a rendered comment line at an index;
negative indices count from the end and the result is clamped to [0, n]. -/
def insert_comment (cfg : Cfg) (source : Str) (line : Int) (comment tag : Str)
    (blockFlag : Bool) : Except Str Str := do
  let c? ← if blockFlag then block_comment cfg comment tag
           else line_comment cfg comment tag
  match c? with
  | none => .error (S "Comment is not supported")
  | some c =>
    let lines := splitlines source
    let n : Int := lines.length
    let line := if line < 0 then line + n else line
    let idx := (max 0 (min line n)).toNat
    .ok (joinNL (lines.take idx ++ [c] ++ lines.drop idx))

/-- TheParser.comment: append an inline comment at the end of a line;
negative indices count from the end, out-of-range indices raise. -/
def comment (cfg : Cfg) (source : Str) (line : Int) (commentTxt tag : Str) :
    Except Str Str :=
  let lines := splitlines source
  let n : Int := lines.length
  let line := if line < 0 then line + n else line
  if line < 0 ∨ line ≥ n then
    .error (S "Line " ++ intStr line ++ S " is out of range")
  else do
    match ← line_comment cfg commentTxt tag with
    | none => .error (S "Line comment is not supported")
    | some c =>
      let i := line.toNat
      .ok (joinNL (lines.set i (lines.getD i [] ++ ' ' :: c)))

/-- Python slice line[a:-b] (note -0 means an empty slice). -/
def sliceToNegB (line : Str) (a b : Nat) : Str :=
  if b = 0 then [] else (line.drop a).take (line.length - a - b)

/-- TheParser._extract_line_comment: recognize one full-line tagged comment.
When the language has a line-comment prefix only that form is tried; block
comments are tried only for languages without line comments. -/
def extract_line_comment (cfg : Cfg) (line tag : Str) : Option Str :=
  let line := stripStr line
  if Cfg.linePre cfg ≠ [] then
    let p := Cfg.linePre cfg ++ tag
    if p.isPrefixOf line then some (stripStr (line.drop p.length)) else none
  else if Cfg.blockPre cfg ≠ [] then
    let p := Cfg.blockPre cfg ++ tag
    if p.isPrefixOf line && (Cfg.blockSuf cfg).isSuffixOf line then
      some (stripStr (sliceToNegB line p.length (Cfg.blockSuf cfg).length))
    else none
  else none

/-- Scan step of TheParser.extract_comments over the selected line range. -/
def scanLines (cfg : Cfg) (tag : Str) : List Str → List Str × List Str
  | [] => ([], [])
  | l :: rest =>
    let (cs, ks) := scanLines cfg tag rest
    match extract_line_comment cfg (stripStr l) tag with
    | some c => (c :: cs, ks)
    | none => (cs, l :: ks)

/-- TheParser.extract_comments: extract full-line tagged comments in the
inclusive range [first, last]; a negative first index is rejected by an
assertion, a negative or overflowing last index is normalized/clamped. -/
def extract_comments (cfg : Cfg) (source tag : Str) (first last : Int) :
    Except Str (List Str × Str) :=
  if first < 0 then .error (S "Negative first indexes are not supported")
  else
    let lines := splitlines source
    let n : Int := lines.length
    let last := if last < 0 then last + n else if last ≥ n then n - 1 else last
    if last < first then .ok ([], source)
    else
      let f := first.toNat
      let nxt := (last + 1).toNat
      let mid := (lines.drop f).take (nxt - f)
      let (cs, ks) := scanLines cfg tag mid
      .ok (cs, joinNL (lines.take f ++ ks ++ lines.drop nxt))

/-- Concrete grammar of the C-like languages (TypescriptParser, CParser,
and the TheParser defaults): line '//', block '/*' ... '*/'. -/
def cfgC : Cfg := ⟨S "//", S "/*", S "*/"⟩

/-- Concrete grammar of PythonParser and BashParser: line '#', no block form. -/
def cfgPy : Cfg := ⟨S "#", [], []⟩

/-- Concrete grammar of HtmlParser: no line form, block comments only. -/
def cfgHtml : Cfg := ⟨[], S "<!--", S "-->"⟩

/-- Decimal rendering of a natural number (Python str(i)). -/
def natStr (n : Nat) : Str := Nat.toDigits 10 n

/-- TheReviewFile._th: English ordinal label with the teen exception
(the tens digit 1 forces the default suffix). -/
def th (i : Nat) : Str :=
  let d := if (i % 100) / 10 ≠ 1 then i % 10 else 0
  let suf := if d = 1 then S "st" else if d = 2 then S "nd"
             else if d = 3 then S "rd" else S "th"
  natStr i ++ suf

/-- Ordinal suffix computed by review_code._error (and the review_code retry
loop): the last digit alone selects the suffix, with no teen exception. -/
def reviewCodeTh (i : Nat) : Str :=
  let d := i % 10
  let suf := if d = 1 then S "st" else if d = 2 then S "nd"
             else if d = 3 then S "rd" else S "th"
  natStr i ++ suf

/-- Modelled from the spec wording of the ordinal rule, for comparison:
'st'/'nd'/'rd' for numbers ending in 1/2/3 except when n mod 100 lies in
11..13, and 'th' otherwise. -/
def specOrdinalSuf (n : Nat) : Str :=
  if 11 ≤ n % 100 ∧ n % 100 ≤ 13 then S "th"
  else if n % 10 = 1 then S "st"
  else if n % 10 = 2 then S "nd"
  else if n % 10 = 3 then S "rd"
  else S "th"

/-- JSON-ish values carried by the AI payload dictionary, restricted to the
shapes _data_check distinguishes: strings, lists (whose elements it never
inspects, so they are modelled as strings), and null/other falsy values. -/
inductive PV where
  | pstr (s : Str)
  | plist (l : List Str)
  | pnull
deriving DecidableEq

/-- Python truthiness of a payload value. -/
def pvTruthy : PV → Bool
  | .pstr s => decide (s ≠ [])
  | .plist l => decide (l ≠ [])
  | .pnull => false

/-- The AI payload dictionary (assumed duplicate-free, as Python dicts are). -/
abbrev Dict := List (Str × PV)

/-- Python dict assignment d[k] = v. -/
def dictSet (d : Dict) (k : Str) (v : PV) : Dict :=
  if (d.lookup k).isSome then
    d.map (fun kv => if kv.1 = k then (k, v) else kv)
  else d ++ [(k, v)]

/-- Result of TheReviewer._data_check: a fatal validation error (None, err),
a payload with an optional warning (data, err), or a Python-level crash. -/
inductive DCRes where
  | fatal (e : Str)
  | res (d : Dict) (w : Option Str)
  | crash (e : Str)
deriving DecidableEq

/-- Normalization of one optional list field by _data_check: default a falsy
value to the empty list, reject a truthy non-list.  Returns the updated
dictionary, or the fatal error message. -/
def normList (d : Dict) (k : Str) (msg : Str) : Except Str Dict :=
  if ¬ pvTruthy ((d.lookup k).getD .pnull) then .ok (dictSet d k (.plist []))
  else match d.lookup k with
    | some (.plist _) => .ok d
    | _ => .error msg

/-- Continuation of _data_check after the error-field test: the required-keys
test, list-field defaulting, and the output/AST validation. -/
def dataCheckRequired (hasParser : Bool) (expected : Option Str)
    (parseF : Str → Option Str) (data : Dict) : DCRes :=
  if ¬ ((data.lookup (S "overview")).isSome ∧ (data.lookup (S "review")).isSome)
  then .fatal (S "[ERR] _data_check: required keys not found")
  else
    match normList data (S "notes") (S "[ERR] _data_check: <notes> must be a string list") with
    | .error e => .fatal e
    | .ok d1 =>
    match normList d1 (S "issues") (S "[ERR] _data_check: <issues> must be a string list") with
    | .error e => .fatal e
    | .ok d2 =>
    match normList d2 (S "imperfections") (S "[ERR] _data_check: <imperfections> must be a string list") with
    | .error e => .fatal e
    | .ok d3 =>
    match normList d3 (S "impediments") (S "[ERR] _data_check: <impediments> must be a string list") with
    | .error e => .fatal e
    | .ok d4 =>
      if hasParser then
        match d4.lookup (S "output") with
        | some (.pstr o) =>
          match expected with
          | some exp =>
            match parseF o with
            | none => .fatal (S "[ERR] _data_check: <output> parsing failed")
            | some ast =>
              if ast ≠ exp then
                .res d4 (some (S "[WARNING] _data_check: <output> does not match the input expected"))
              else .res d4 none
          | none => .res d4 none
        | _ => .fatal (S "[ERR] _data_check: <output> must be a string")
      else .res d4 none

/-- TheReviewer._data_check.  `hasParser` mirrors `parser is not None`;
`expected` is the AST string of the original source; `parseF` stands for
parser.parse on the AI output (None models a parse exception). -/
def data_check (hasParser : Bool) (expected : Option Str)
    (parseF : Str → Option Str) (data : Dict) : DCRes :=
  match data.lookup (S "error") with
  | some v =>
    if pvTruthy v then
      match v with
      | .pstr s =>
        if stripStr s ≠ [] then .fatal (S "[ERR] _data_check: <error> = " ++ s)
        else dataCheckRequired hasParser expected parseF data
      | _ => .crash (S "AttributeError: strip on non-string")
    else dataCheckRequired hasParser expected parseF data
  | none => dataCheckRequired hasParser expected parseF data


/-- Python str.lower(), per character (ASCII). -/
def toLowerStr (s : Str) : Str := s.map Char.toLower

/-- A concrete-syntax-tree node as supplied by the external tree-sitter
grammar: node type, named flag, the raw source span of the node, and the
child list.  Byte offsets are represented by carrying each node's span text
directly. -/
inductive Node where
  | mk (ty : Str) (named : Bool) (tx : Str) (children : List Node)

/-- Node type accessor. -/
def Node.ntype : Node → Str
  | .mk ty _ _ _ => ty

/-- Node named-flag accessor. -/
def Node.nnamed : Node → Bool
  | .mk _ nm _ _ => nm

/-- Node span-text accessor. -/
def Node.ntext : Node → Str
  | .mk _ _ tx _ => tx

/-- Node children accessor. -/
def Node.nchildren : Node → List Node
  | .mk _ _ _ cs => cs

/-- Comment classification used at every recursion level of _parse:
the lower-cased node type contains the word comment. -/
def isCommentNode (n : Node) : Bool := isSubstr (S "comment") (toLowerStr n.ntype)

/-- UTF-8 byte length of a span (tree-sitter offsets are byte-based). -/
def utf8Len (s : Str) : Nat := (s.map Char.utf8Size).sum

/-- The canonical JSON structure produced by node_to_dict, plus the
top-level wrapper.  Key order in an object is its list order; the
constructions below list keys in sorted order so that serialization
matches json.dumps with sort_keys=True. -/
inductive J where
  | jstr (s : Str)
  | jnum (n : Nat)
  | jbool (b : Bool)
  | jarr (l : List J)
  | jobj (l : List (Str × J))

/-- Token fingerprinting loop of node_to_dict: walk the children once,
hash each non-empty unnamed non-comment token, and record the index of
the named child it precedes; comment children never advance the index. -/
def tokensAux (h : Str → Str) : List Node → Nat → List Str × List Nat
  | [], _ => ([], [])
  | c :: cs, idx =>
    if c.nnamed then
      if isCommentNode c then tokensAux h cs idx
      else tokensAux h cs (idx + 1)
    else
      if isCommentNode c then tokensAux h cs idx
      else if c.ntext ≠ [] then
        let (ts, ps) := tokensAux h cs idx
        (h c.ntext :: ts, idx :: ps)
      else tokensAux h cs idx

mutual
/-- node_to_dict from TheParser._parse: canonicalize one node, skipping
comment nodes and tokens at every level; `h` abstracts the truncated
sha256 fingerprint of a byte span. -/
def nodeToDict (h : Str → Str) : Node → J
  | .mk ty nm tx cs =>
    let hasNamedChild := cs.any (fun c => c.nnamed)
    let kids := kidsOf h cs
    let toks := tokensAux h cs 0
    J.jobj
      ((if !kids.isEmpty then [(S "children", J.jarr kids)] else [])
        ++ [(S "named", J.jbool nm)]
        ++ (if toks.1 ≠ [] then
              [(S "token_positions", J.jarr (toks.2.map J.jnum)),
               (S "tokens", J.jarr (toks.1.map J.jstr))]
            else [])
        ++ [(S "type", J.jstr ty)]
        ++ (if nm && !hasNamedChild && decide (tx ≠ []) then
              [(S "value_meta",
                J.jobj [(S "length", J.jnum (utf8Len tx)),
                        (S "value_hash", J.jstr (h tx))])]
            else []))

/-- Children loop of node_to_dict: named non-comment children are
canonicalized in order. -/
def kidsOf (h : Str → Str) : List Node → List J
  | [] => []
  | c :: cs =>
    if c.nnamed && !(isCommentNode c) then nodeToDict h c :: kidsOf h cs
    else kidsOf h cs
end

/-- JSON string escaping as performed by json.dumps (ensure_ascii=False). -/
def escChar (c : Char) : Str :=
  if c = '"' then ['\\', '"']
  else if c = '\\' then ['\\', '\\']
  else if c = '\n' then ['\\', 'n']
  else if c = '\r' then ['\\', 'r']
  else if c = '\t' then ['\\', 't']
  else if c = '\x08' then ['\\', 'b']
  else if c = '\x0c' then ['\\', 'f']
  else if c.toNat < 0x20 then
    ['\\', 'u', '0', '0', (Nat.digitChar (c.toNat / 16)), (Nat.digitChar (c.toNat % 16))]
  else [c]

/-- Serialization of a JSON string literal. -/
def dumpStr (s : Str) : Str := '"' :: (s.map escChar).flatten ++ ['"']

mutual
/-- json.dumps with sort_keys=True and separators=(',', ':'): keys are
emitted in object order, which the builders above keep sorted. -/
def dumps : J → Str
  | .jstr s => dumpStr s
  | .jnum n => natStr n
  | .jbool b => if b then S "true" else S "false"
  | .jarr l => '[' :: dumpsArr l ++ [']']
  | .jobj l => '\x7b' :: dumpsObj l ++ ['\x7d']

/-- Comma-separated serialization of array elements. -/
def dumpsArr : List J → Str
  | [] => []
  | [x] => dumps x
  | x :: xs => dumps x ++ ',' :: dumpsArr xs

/-- Comma-separated serialization of object entries. -/
def dumpsObj : List (Str × J) → Str
  | [] => []
  | [(k, v)] => dumpStr k ++ ':' :: dumps v
  | (k, v) :: xs => dumpStr k ++ ':' :: dumps v ++ ',' :: dumpsObj xs
end

/-- TheParser.parse: canonicalize the tree rooted at `root` and serialize
it deterministically (language/tree/version keys in sorted order). -/
def theParse (h : Str → Str) (lang : Str) (root : Node) : Str :=
  dumps (J.jobj [(S "language", J.jstr lang),
                 (S "tree", nodeToDict h root),
                 (S "version", J.jnum 1)])

mutual
/-- Two syntax trees differ only in the text of comments: same shape, same
node types and named flags everywhere, and equal span text wherever
_parse reads a span (named leaves and unnamed tokens); nodes classified
as comments may carry arbitrary text. -/
def sameB : Node → Node → Bool
  | .mk t1 n1 x1 c1, .mk t2 n2 x2 c2 =>
    decide (t1 = t2) && decide (n1 = n2) && sameL c1 c2 &&
    (if isSubstr (S "comment") (toLowerStr t1) then true
     else if n1 then (c1.any (fun c => c.nnamed) || decide (x1 = x2))
     else decide (x1 = x2))

/-- Pointwise lifting of sameB to child lists. -/
def sameL : List Node → List Node → Bool
  | [], [] => true
  | a :: as, b :: bs => sameB a b && sameL as bs
  | _, _ => false
end

/-- Validated AI payload as consumed by the review/fix sessions after
_data_check: required narrative fields (missing optional strings are the
empty string, per reviewfile's graceful get handling), optional list
sections, and the optional replacement code. -/
structure RData where
  output : Option Str
  overview : Str
  review : Str
  design : Str
  notes : List Str
  issues : List Str
  imperfections : List Str
  impediments : List Str
deriving DecidableEq

/-- One reviewer.exec outcome: (data, err).  A hard error carries no data;
a fingerprint mismatch carries both data and a warning. -/
structure AttemptR where
  data : Option RData
  err : Option Str
deriving DecidableEq

/-- Observable side effects of a session, in order: AI invocations
(review-prompt and fix-prompt), failure logging, summary logging, and
artifact persistence (the _update call, carrying the data it writes). -/
inductive Event where
  | execRev (a : AttemptR)
  | execFix (a : AttemptR)
  | logFail (i : Nat) (err : Option Str)
  | logSummary (s : Str)
  | persist (d : RData)
deriving DecidableEq

/-- Session-visible state: the artifact file content, the two executor
response queues (consumed head first; an exhausted queue yields a hard
error), and the event trace. -/
structure St where
  file : Str
  revQ : List AttemptR
  fixQ : List AttemptR
  trace : List Event
deriving DecidableEq

/-- Attempt returned when an executor queue is exhausted. -/
def noResp : AttemptR := ⟨none, some (S "no response")⟩

/-- Pop the next reviewer response, recording the invocation. -/
def popRev (st : St) : AttemptR × St :=
  let a := st.revQ.headD noResp
  (a, { st with revQ := st.revQ.tail, trace := st.trace ++ [Event.execRev a] })

/-- Pop the next fixer response, recording the invocation. -/
def popFix (st : St) : AttemptR × St :=
  let a := st.fixQ.headD noResp
  (a, { st with fixQ := st.fixQ.tail, trace := st.trace ++ [Event.execFix a] })

/-- The persisted payloads recorded in a trace. -/
def persistsOf (tr : List Event) : List RData :=
  tr.filterMap (fun e => match e with | .persist d => some d | _ => none)

/-- The fixer invocations recorded in a trace. -/
def fixCallsOf (tr : List Event) : List AttemptR :=
  tr.filterMap (fun e => match e with | .execFix a => some a | _ => none)

/-- Language sniffing in _load: the first extracted review comment that
starts with the $lang: directive supplies the comment language (first
whitespace-separated word), defaulting to English. -/
def detectLang : List Str → Str
  | [] => S "English"
  | r :: rs =>
    if (S "$lang:").isPrefixOf r then
      let rest := stripStr (r.drop 6)
      if rest = [] then S "English" else rest.takeWhile (fun c => c ≠ ' ')
    else detectLang rs

/-- Review tag used for review-metadata comments. -/
def tagRev : Str := S "\\/"

/-- Review tag used for requirement comments. -/
def tagReq : Str := S "\\%"

/-- TheReviewFile._load on an in-memory source: strip review comments, then
requirement comments, sniff the comment language, and build
(prior_review, comment_language, requirements, input).  Path handling,
references and context are prompt plumbing and are not modelled. -/
def loadFile (cfg : Cfg) (file : Str) : Except Str (Str × Str × Str × Str) := do
  let (reviews, s1) ← extract_comments cfg file tagRev 0 (-1)
  let (reqs, s2) ← extract_comments cfg s1 tagReq 0 (-1)
  .ok (joinNL reviews, detectLang reviews, joinNL reqs, stripNl s2)

/-- TheReviewFile._comment_section. -/
def commentSection (content title : Str) : Str :=
  S "---------- [" ++ title ++ S "]\n" ++ content ++ S "\n"

/-- TheReviewFile._coment_text: empty string when the field is missing or
empty, a titled section otherwise. -/
def comentText (content title : Str) : Str :=
  if content = [] then [] else commentSection content title

/-- TheReviewFile._coment_list: join the non-blank entries; empty result
yields no section. -/
def comentList (l : List Str) (title : Str) : Str :=
  let text := stripStr (joinNL (l.filter (fun s => stripStr s ≠ [])))
  if text = [] then [] else commentSection text title

/-- Review-metadata header text assembled by TheReviewFile._update
(`ts` abstracts time.strftime). -/
def updateTxt (ai lang ts : Str) (d : RData) : Str :=
  S "---------- Reviewed by: " ++ ai ++ S " @ " ++ ts ++ S "\n"
  ++ S "$lang: " ++ lang ++ S "\n"
  ++ comentText d.overview (S "Overview")
  ++ comentText d.review (S "Review")
  ++ comentText d.design (S "Design")
  ++ comentList d.notes (S "Notes")
  ++ comentList d.issues (S "Issues")
  ++ comentList d.imperfections (S "Imperfections")
  ++ comentList d.impediments (S "Impediments")
  ++ S "----------\n"

/-- TheReviewFile._update: strip any tagged comments from the output code,
re-insert the requirement block (when present) and the fresh review
header on top, and produce (header text, written file content). -/
def theUpdate (cfg : Cfg) (ai lang ts : Str) (d : RData) (requirements : Str) :
    Except Str (Str × Str) := do
  let txt := updateTxt ai lang ts d
  let source0 := stripNl (d.output.getD [])
  let (_, s1) ← extract_comments cfg source0 tagRev 0 (-1)
  let (_, s2) ← extract_comments cfg s1 tagReq 0 (-1)
  let s3 ← if requirements ≠ [] then
      insert_comment cfg s2 0 (requirements ++ S "\n") tagReq false
    else pure s2
  let s4 ← insert_comment cfg s3 0 txt tagRev false
  .ok (txt, s4)

/-- Retry loop of TheReviewFile._review (the for-i-in-range(retry) body):
accept and persist on (data, no error); otherwise log the failure and
retry while budget remains; on the final failed attempt fall back to the
original source when the attempt still carried data, else fail. -/
def reviewGo (cfg : Cfg) (ai ts lang source req : Str) (retry i : Nat)
    (st : St) : Except Str (Option Str × St) :=
  if i < retry then
    let (a, st1) := popRev st
    match a.data, a.err with
    | some d, none =>
      match theUpdate cfg ai lang ts d req with
      | .error e => .error e
      | .ok (txt, w) =>
        .ok (some txt, { st1 with file := w, trace := st1.trace ++ [Event.persist d] })
    | _, _ =>
      let st2 := { st1 with trace := st1.trace ++ [Event.logFail (i + 1) a.err] }
      if i < retry - 1 then reviewGo cfg ai ts lang source req retry (i + 1) st2
      else
        match a.data with
        | some d =>
          let d' := { d with output := some source }
          match theUpdate cfg ai lang ts d' req with
          | .error e => .error e
          | .ok (txt, w) =>
            .ok (some txt, { st2 with file := w, trace := st2.trace ++ [Event.persist d'] })
        | none => .ok (none, st2)
  else .ok (none, st)
termination_by retry - i
decreasing_by
  all_goals simp_wf
  all_goals omega

/-- TheReviewFile._review: compute the runtime comment language (explicit
override wins over stored metadata) and run the retry loop.  The AST of
the input (parser.parse) and the prompt assembly are folded into the
executor oracle, which already reports mismatches via AttemptR.err. -/
def theReview (cfg : Cfg) (ai ts langO commentLang input req : Str)
    (retry : Nat) (st : St) : Except Str (Option Str × St) :=
  let runtimeLang := if stripStr langO = [] then commentLang else stripStr langO
  reviewGo cfg ai ts runtimeLang input req retry 0 st

/-- TheReviewFile.review: load the artifact, return the empty string at
once when no code remains after stripping tags, otherwise run _review. -/
def theReviewFileReview (cfg : Cfg) (ai ts langO : Str) (retry : Nat)
    (st : St) : Except Str (Option Str × St) := do
  let (_, commentLang, reqs, input) ← loadFile cfg st.file
  if input = [] then .ok (some [], st)
  else theReview cfg ai ts langO commentLang input reqs retry st

/-- TheReviewFix._to_fix: a review needs fixing when it lists issues and
reports no impediments. -/
def to_fix (review : Str) : Bool :=
  if ¬ isSubstr (S "---------- [Issues]") review then false
  else if isSubstr (S "---------- [Impediments]") review then false
  else true

/-- Python truthiness of the Optional[str] returned by _review. -/
def strFalsy : Option Str → Bool
  | none => true
  | some t => decide (t = [])

/-- TheReviewFix.review: review first when never reviewed, stop on clean or
impeded reviews, otherwise one fixer call, then one review pass over the
fixed code, recursing with budget - 1.  The structural recursion of the
Python code is bounded here by `fuel`; no claim path exhausts it. -/
def fixReview (cfg : Cfg) (ai ts langO : Str) (tmpB : Bool) (context : Str)
    (retry : Nat) (fuel : Nat) (st : St) : Except Str (Option Str × St) :=
  match fuel with
  | 0 => .error (S "recursion limit")
  | fuel + 1 => do
    let (priorReview, commentLang, reqs, input) ← loadFile cfg st.file
    if input = [] then .ok (some [], st)
    else if ¬ isSubstr (S "---------- [Review]") priorReview then
      -- Never reviewed before: one review pass, then restart with the
      -- context that pass produced (the request context is unchanged).
      let (r, st1) ← theReview cfg ai ts langO commentLang input reqs 1 st
      if strFalsy r then .ok (none, st1)
      else fixReview cfg ai ts langO tmpB context retry fuel st1
    else if ¬ to_fix priorReview then .ok (some priorReview, st)
    else
      -- reviewer.init for the fix prompt mutates request['comment_language']
      -- when an explicit language override was given.
      let commentLang2 := if langO = [] then commentLang else langO
      let (a, st1) := popFix st
      if a.data.isNone || a.err.isSome then
        if retry ≤ 1 then .ok (none, st1)
        else fixReview cfg ai ts langO tmpB context (retry - 1) fuel st1
      else
        match a.data with
        | none => .ok (none, st1)
        | some d =>
          let summary :=
            (if d.overview ≠ [] then S "[Bug fix]\n" ++ d.overview ++ S "\n" else [])
            ++ (if d.review ≠ [] then S "[Discussion]\n" ++ d.review ++ S "\n" else [])
          match d.output with
          | none =>
            if retry ≤ 1 then .ok (none, st1)
            else fixReview cfg ai ts langO tmpB context (retry - 1) fuel st1
          | some output =>
            let st2 := if tmpB then
                { st1 with trace := st1.trace ++ [Event.logSummary summary] }
              else st1
            let context2 := context ++ '\n' :: summary
            let (r2, st3) ← theReview cfg ai ts langO commentLang2 output reqs 1 st2
            if strFalsy r2 then .ok (none, st3)
            else
              match r2 with
              | none => .ok (none, st3)
              | some prior2 =>
                if retry ≤ 1 || ¬ to_fix prior2 then .ok (some prior2, st3)
                else fixReview cfg ai ts langO tmpB context2 (retry - 1) fuel st3

/-- Decidable equality for Except results, used to evaluate the embedded
functions at concrete inputs. -/
instance exceptDecEq {e b : Type} [DecidableEq e] [DecidableEq b] :
    DecidableEq (Except e b) := fun x y =>
  match x, y with
  | .error u, .error v =>
    if h : u = v then isTrue (by rw [h]) else isFalse (by intro hc; cases hc; exact h rfl)
  | .ok u, .ok v =>
    if h : u = v then isTrue (by rw [h]) else isFalse (by intro hc; cases hc; exact h rfl)
  | .error _, .ok _ => isFalse (by intro hc; cases hc)
  | .ok _, .error _ => isFalse (by intro hc; cases hc)

/-! ## Theorems -/

lemma line_comment_ok (cfg : Cfg) (c tag : Str) (h : Cfg.linePre cfg ≠ []) :
    line_comment cfg c tag = .ok (some (lineCommentRender cfg c tag)) := by
  unfold line_comment
  rw [if_neg h]

lemma extract_comments_ok (cfg : Cfg) (source tag : Str) {first : Int}
    (last : Int) (h : 0 ≤ first) :
    ∃ r, extract_comments cfg source tag first last = .ok r := by
  unfold extract_comments
  rw [if_neg (by omega)]
  dsimp only
  split <;> try exact ⟨_, rfl⟩
  all_goals split <;> try exact ⟨_, rfl⟩
  all_goals split <;> exact ⟨_, rfl⟩

/-- Claim C9: extract_comments rejects every negative first-line index with
an assertion error, for every source, tag and last index; a non-negative
first index never trips the assertion (the last index, by contrast, is
normalized and clamped rather than checked). -/
theorem extract_comments_neg_first (cfg : Cfg) (source tag : Str)
    (first last : Int) :
    (first < 0 → extract_comments cfg source tag first last =
      .error (S "Negative first indexes are not supported"))
    ∧ (0 ≤ first → ∃ r, extract_comments cfg source tag first last = .ok r) := by
  constructor
  · intro h
    unfold extract_comments
    rw [if_pos h]
  · intro h
    exact extract_comments_ok cfg source tag last h

/-- Witness for C9 at concrete inputs. -/
theorem extract_comments_neg_first_w :
    (extract_comments cfgC (S "a\nb") (S "T") (-1) (-1) =
      .error (S "Negative first indexes are not supported"))
    ∧ ∃ r, extract_comments cfgC (S "a\nb") (S "T") 0 (-1) = .ok r :=
  ⟨(extract_comments_neg_first cfgC (S "a\nb") (S "T") (-1) (-1)).1 (by decide),
   (extract_comments_neg_first cfgC (S "a\nb") (S "T") 0 (-1)).2 (by decide)⟩

/-- Claim C8: insert_comment clamps an index beyond the line count to the
line count and appends the rendered comment at the end instead of raising;
negative indices count from the end (clamped below at 0); comment(), by
contrast, raises an out-of-range error whenever the resolved index falls
outside [0, lineCount). -/
theorem insert_comment_clamps (cfg : Cfg) (source c tag : Str) (line : Int)
    (b : Bool) (r : Int) :
    (Cfg.linePre cfg ≠ [] → ((splitlines source).length : Int) < line →
      insert_comment cfg source line c tag false =
        .ok (joinNL (splitlines source ++ [lineCommentRender cfg c tag])))
    ∧ (line < 0 →
      insert_comment cfg source line c tag b =
        insert_comment cfg source (max 0 (line + ((splitlines source).length : Int))) c tag b)
    ∧ (r = (if line < 0 then line + ((splitlines source).length : Int) else line) →
       r < 0 ∨ ((splitlines source).length : Int) ≤ r →
      comment cfg source line c tag =
        .error (S "Line " ++ intStr r ++ S " is out of range")) := by
  refine ⟨fun hl hgt => ?_, fun hneg => ?_, fun hr hout => ?_⟩
  · unfold insert_comment
    simp only [Bool.false_eq_true, if_false, line_comment_ok cfg c tag hl]
    simp only [bind, Except.bind]
    rw [if_neg (by omega)]
    have h1 : min line ((splitlines source).length : Int) =
        ((splitlines source).length : Int) := by omega
    have h2 : max 0 ((splitlines source).length : Int) =
        ((splitlines source).length : Int) := by omega
    rw [h1, h2, Int.toNat_natCast, List.take_length, List.drop_length]
    simp
  · have key : max 0 (min (line + ((splitlines source).length : Int))
          ((splitlines source).length : Int))
        = max 0 (min (max 0 (line + ((splitlines source).length : Int)))
          ((splitlines source).length : Int)) := by omega
    unfold insert_comment
    simp only [bind, Except.bind]
    cases b
    · cases hc : line_comment cfg c tag with
      | error e => simp [hc]
      | ok c? =>
        cases c? with
        | none => simp [hc]
        | some cc =>
          simp only [Bool.false_eq_true, if_false, hc]
          rw [if_pos hneg, if_neg (by omega), key]
    · cases hc : block_comment cfg c tag with
      | error e => simp [hc]
      | ok c? =>
        cases c? with
        | none => simp [hc]
        | some cc =>
          simp only [if_true, hc]
          rw [if_pos hneg, if_neg (by omega), key]
  · unfold comment
    simp only []
    rw [← hr]
    rw [if_pos (by omega)]

/-- Witness for C8 at concrete inputs: a two-line source, insertion index 5
(clamped to append), index -1 (counted from the end), and comment() at the
out-of-range index 2. -/
theorem insert_comment_clamps_w :
    (insert_comment cfgC (S "a\nb") 5 (S "c") (S "T") false =
      .ok (joinNL (splitlines (S "a\nb") ++ [lineCommentRender cfgC (S "c") (S "T")])))
    ∧ (insert_comment cfgC (S "a\nb") (-1) (S "c") (S "T") false =
      insert_comment cfgC (S "a\nb")
        (max 0 ((-1) + ((splitlines (S "a\nb")).length : Int))) (S "c") (S "T") false)
    ∧ (comment cfgC (S "a\nb") 2 (S "c") (S "T") =
      .error (S "Line " ++ intStr 2 ++ S " is out of range")) :=
  ⟨(insert_comment_clamps cfgC (S "a\nb") (S "c") (S "T") 5 false 5).1
      (by decide) (by decide),
   (insert_comment_clamps cfgC (S "a\nb") (S "c") (S "T") (-1) false (-1)).2.1
      (by decide),
   (insert_comment_clamps cfgC (S "a\nb") (S "c") (S "T") 2 false 2).2.2
      (by decide) (by decide)⟩

/-- Claim C7: TheReviewFile._th renders every attempt ordinal with the
correct English suffix, including the 11/12/13 (mod 100) exception; but the
duplicated ordinal logic in review_code._error (and the review_code retry
loop) has no teen exception and renders attempt 11 as 11st instead of 11th,
contradicting that file's own review notes. -/
theorem th_ordinals :
    (∀ n : Nat, th n = natStr n ++ specOrdinalSuf n)
    ∧ reviewCodeTh 11 = S "11st"
    ∧ natStr 11 ++ specOrdinalSuf 11 = S "11th" := by
  refine ⟨fun n => ?_, by decide, by decide⟩
  unfold th specOrdinalSuf
  have h10 : n % 10 = n % 100 % 10 := (Nat.mod_mod_of_dvd n (by norm_num)).symm
  have h100 : n % 100 < 100 := Nat.mod_lt _ (by norm_num)
  rw [h10]
  simp only []
  congr 1
  exact (by decide :
    ∀ m, m < 100 →
      (if (if m / 10 ≠ 1 then m % 10 else 0) = 1 then S "st"
       else if (if m / 10 ≠ 1 then m % 10 else 0) = 2 then S "nd"
       else if (if m / 10 ≠ 1 then m % 10 else 0) = 3 then S "rd"
       else S "th") =
      (if 11 ≤ m ∧ m ≤ 13 then S "th"
       else if m % 10 = 1 then S "st"
       else if m % 10 = 2 then S "nd"
       else if m % 10 = 3 then S "rd"
       else S "th")) (n % 100) h100

lemma rstripP_eq_rdropWhile (p : Char → Bool) (s : Str) :
    rstripP p s = List.rdropWhile p s := rfl

lemma lstripP_cons_neg (p : Char → Bool) (a : Char) (l : Str) (h : ¬ p a) :
    lstripP p (a :: l) = a :: l := by
  simp [lstripP, List.dropWhile_cons, h]

lemma rstripP_append (p : Char → Bool) (l1 l2 : Str) :
    rstripP p (l1 ++ l2) =
      if rstripP p l2 = [] then rstripP p l1 else l1 ++ rstripP p l2 := by
  simp only [rstripP, List.reverse_append, List.dropWhile_append,
    List.isEmpty_iff]
  split
  · rename_i h
    rw [if_pos]
    rw [← List.reverse_eq_nil_iff]
    simpa using h
  · rename_i h
    rw [if_neg, List.reverse_append, List.reverse_reverse]
    intro hc
    exact h (by rw [← List.reverse_reverse (List.dropWhile p l2.reverse), ← rstripP,
      rstripP]  at hc ⊢; simpa using congrArg List.reverse hc)

lemma rstripP_idem (p : Char → Bool) (s : Str) :
    rstripP p (rstripP p s) = rstripP p s := by
  simp [rstripP_eq_rdropWhile, List.rdropWhile_idempotent]

lemma lstripP_idem (p : Char → Bool) (s : Str) :
    lstripP p (lstripP p s) = lstripP p s := by
  simp [lstripP, List.dropWhile_idempotent]

lemma rstripP_self_of_getLast (p : Char → Bool) (l : Str)
    (h : ∀ x, l.getLast? = some x → p x = false) : rstripP p l = l := by
  unfold rstripP
  have hrev : l.reverse.dropWhile p = l.reverse := by
    cases hr : l.reverse with
    | nil => rfl
    | cons a t =>
      have ha : l.getLast? = some a := by
        rw [← List.head?_reverse, hr]
        rfl
      simp [List.dropWhile_cons, h a ha]
  rw [hrev, List.reverse_reverse]

lemma getLast_of_rstripP_self (p : Char → Bool) (l : Str) (h : rstripP p l = l) :
    ∀ x, l.getLast? = some x → p x = false := by
  intro x hx
  by_contra hpx
  have hpx' : p x = true := by revert hpx; cases p x <;> simp
  rcases List.getLast?_eq_some_iff.mp hx with ⟨l', hl'⟩
  rw [hl', rstripP_eq_rdropWhile, List.rdropWhile_concat_pos p l' x hpx']  at h
  have hle := (List.rdropWhile_prefix p l').length_le
  rw [h] at hle
  simp at hle

lemma rstripP_lstripP (p : Char → Bool) (s : Str) (h : rstripP p s = s) :
    rstripP p (lstripP p s) = lstripP p s := by
  apply rstripP_self_of_getLast
  intro x hx
  rcases List.dropWhile_suffix (l := s) p with ⟨pre, hpre⟩
  have hx' : s.getLast? = some x := by
    have hx2 : (List.dropWhile p s).getLast? = some x := hx
    rw [← hpre, List.getLast?_append, hx2]
    rfl
  exact getLast_of_rstripP_self p s h x hx'

lemma stripP_idem (p : Char → Bool) (s : Str) :
    stripP p (stripP p s) = stripP p s := by
  unfold stripP
  rw [rstripP_lstripP p _ (rstripP_idem p s), lstripP_idem]

lemma stripStr_idem (s : Str) : stripStr (stripStr s) = stripStr s :=
  stripP_idem isWS s

lemma joinNL_singleton (x : Str) : joinNL [x] = x := by
  simp [joinNL, List.intercalate]

lemma splitNl_nonl (l : Str) (h : '\n' ∉ l) : splitNl l = [l] := by
  have := List.splitOn_intercalate [l] '\n' (by simpa using h) (by simp)
  rwa [show ['\n'].intercalate [l] = l by simp [List.intercalate]] at this

lemma splitNl_joinNL (ls : List Str) (h : ∀ l ∈ ls, '\n' ∉ l) (hne : ls ≠ []) :
    splitNl (joinNL ls) = ls :=
  List.splitOn_intercalate ls '\n' h hne

lemma normCR_cons_nc (c : Char) (rest : Str) (h : c ≠ '\r') :
    normCR (c :: rest) = c :: normCR rest := by
  rw [normCR.eq_def]
  simp only []
  rw [if_pos h]

lemma normCR_id (s : Str) (h : '\r' ∉ s) : normCR s = s := by
  induction s with
  | nil => rfl
  | cons c rest ih =>
    rw [normCR_cons_nc c rest (by intro hc; exact h (hc ▸ List.mem_cons_self c rest)),
      ih (fun hm => h (List.mem_cons_of_mem c hm))]

lemma joinNL_cons2 (a b : Str) (t : List Str) :
    joinNL (a :: b :: t) = a ++ '\n' :: joinNL (b :: t) := by
  simp [joinNL, List.intercalate, List.intersperse]

lemma mem_joinNL (ls : List Str) (x : Char) (h : x ∈ joinNL ls) :
    x = '\n' ∨ ∃ l ∈ ls, x ∈ l := by
  induction ls with
  | nil => simp [joinNL, List.intercalate] at h
  | cons a t ih =>
    cases t with
    | nil =>
      rw [joinNL_singleton] at h
      exact Or.inr ⟨a, List.mem_cons_self a [], h⟩
    | cons b t2 =>
      rw [joinNL_cons2, List.mem_append] at h
      rcases h with h | h
      · exact Or.inr ⟨a, List.mem_cons_self a _, h⟩
      · rcases List.mem_cons.mp h with h | h
        · exact Or.inl h
        · rcases ih h with h | ⟨l, hl, hx⟩
          · exact Or.inl h
          · exact Or.inr ⟨l, List.mem_cons_of_mem a hl, hx⟩

lemma joinNL_ne_nil (ls : List Str) (hne : ls ≠ []) (hlast : ls.getLast? ≠ some []) :
    joinNL ls ≠ [] := by
  cases ls with
  | nil => exact absurd rfl hne
  | cons a t =>
    cases t with
    | nil =>
      rw [joinNL_singleton]
      intro hc
      exact hlast (by rw [hc]; rfl)
    | cons b t2 =>
      rw [joinNL_cons2]
      intro hc
      rcases List.append_eq_nil.mp hc with ⟨_, h2⟩
      exact List.cons_ne_nil _ _ h2

lemma splitlines_joinNL (ls : List Str)
    (h : ∀ l ∈ ls, '\n' ∉ l ∧ '\r' ∉ l) (hne : ls ≠ [])
    (hlast : ls.getLast? ≠ some []) : splitlines (joinNL ls) = ls := by
  have hnr : '\r' ∉ joinNL ls := by
    intro hm
    rcases mem_joinNL ls '\r' hm with h1 | ⟨l, hl, hx⟩
    · exact absurd h1 (by decide)
    · exact (h l hl).2 hx
  unfold splitlines
  rw [normCR_id _ hnr, splitNl_joinNL ls (fun l hl => (h l hl).1) hne,
    if_neg (joinNL_ne_nil ls hne hlast), if_neg hlast]

lemma splitlines_single (l : Str) (h1 : '\n' ∉ l) (h2 : '\r' ∉ l) (h3 : l ≠ []) :
    splitlines l = [l] := by
  have := splitlines_joinNL [l] (by simp [h1, h2]) (by simp)
    (by simpa using h3)
  rwa [joinNL_singleton] at this

lemma extract_comments_full (cfg : Cfg) (src tag : Str)
    (h : splitlines src ≠ []) :
    extract_comments cfg src tag 0 (-1) =
      .ok ((scanLines cfg tag (splitlines src)).1,
           joinNL (scanLines cfg tag (splitlines src)).2) := by
  unfold extract_comments
  rw [if_neg (by omega)]
  simp only []
  have hn : 1 ≤ (splitlines src).length := by
    cases hs : splitlines src with
    | nil => exact absurd hs h
    | cons a t => simp
  rw [if_pos (show (-1 : Int) < 0 by norm_num)]
  rw [if_neg (show ¬ ((-1 : Int) + (splitlines src).length < 0) by omega)]
  have h2 : (((-1 : Int) + (splitlines src).length) + 1).toNat =
      (splitlines src).length := by omega
  rw [h2]
  simp only [Int.toNat_zero, List.drop_zero, List.take_zero, List.nil_append,
    Nat.sub_zero, List.take_length, List.drop_length, List.append_nil]

lemma extract_comments_empty_src (cfg : Cfg) (tag : Str) :
    extract_comments cfg [] tag 0 (-1) = .ok (([], []) : List Str × Str) := by
  rfl

lemma scanLines_none (cfg : Cfg) (tag : Str) (ls : List Str)
    (h : ∀ l ∈ ls, extract_line_comment cfg (stripStr l) tag = none) :
    scanLines cfg tag ls = ([], ls) := by
  induction ls with
  | nil => rfl
  | cons a t ih =>
    rw [scanLines]
    rw [ih (fun l hl => h l (List.mem_cons_of_mem a hl)),
      h a (List.mem_cons_self a t)]

lemma scanLines_cons (cfg : Cfg) (tag : Str) (a : Str) (t : List Str) :
    scanLines cfg tag (a :: t) =
      match extract_line_comment cfg (stripStr a) tag with
      | some c => (c :: (scanLines cfg tag t).1, (scanLines cfg tag t).2)
      | none => ((scanLines cfg tag t).1, a :: (scanLines cfg tag t).2) := by
  rw [scanLines]

lemma rstripP_append_ne (p : Char → Bool) (l1 l2 : Str)
    (h : rstripP p l2 ≠ []) : rstripP p (l1 ++ l2) = l1 ++ rstripP p l2 := by
  rw [rstripP_append, if_neg h]

/-- The full-line tagged comment produced by prefixing a non-blank
single-line text: stripping yields the prefix followed by the
right-stripped text. -/
lemma stripStr_tagged (A text : Str) (hA : A ≠ [])
    (hws : isWS (A.headD ' ') = false) (ht : stripStr text ≠ []) :
    stripStr (A ++ ' ' :: text) = A ++ ' ' :: rstripP isWS text := by
  have htr : rstripP isWS text ≠ [] := by
    intro hc
    apply ht
    unfold stripStr stripP
    rw [hc]
    rfl
  have e2 : rstripP isWS ([' '] ++ text) = [' '] ++ rstripP isWS text :=
    rstripP_append_ne isWS [' '] text htr
  have hr : rstripP isWS (A ++ ' ' :: text) = A ++ ' ' :: rstripP isWS text := by
    have e1 : A ++ ' ' :: text = A ++ ([' '] ++ text) := by simp
    rw [e1, rstripP_append_ne isWS A ([' '] ++ text) (by rw [e2]; simp), e2]
    simp
  unfold stripStr stripP
  rw [hr]
  cases A with
  | nil => exact absurd rfl hA
  | cons a A2 =>
    rw [List.cons_append]
    exact lstripP_cons_neg isWS a (A2 ++ ' ' :: rstripP isWS text) (by simp_all)

/-- Stripping the payload after the tag prefix recovers the stripped text. -/
lemma stripStr_payload (text : Str) :
    stripStr (' ' :: rstripP isWS text) = stripStr text := by
  unfold stripStr stripP
  by_cases h : rstripP isWS text = []
  · rw [h]
    simp [lstripP, rstripP, List.dropWhile]
  · have e2 : rstripP isWS ([' '] ++ rstripP isWS text) =
        [' '] ++ rstripP isWS text := by
      rw [rstripP_append_ne isWS [' '] _ (by rwa [rstripP_idem]), rstripP_idem]
    rw [show (' ' :: rstripP isWS text) = [' '] ++ rstripP isWS text from rfl,
      e2]
    unfold lstripP
    rw [show ([' '] ++ rstripP isWS text) = ' ' :: rstripP isWS text from rfl,
      List.dropWhile_cons]
    rw [if_pos (by decide)]

lemma elc_line_pos (cfg : Cfg) (line tag : Str) (h1 : Cfg.linePre cfg ≠ [])
    (hp : (Cfg.linePre cfg ++ tag).isPrefixOf (stripStr line) = true) :
    extract_line_comment cfg line tag =
      some (stripStr ((stripStr line).drop (Cfg.linePre cfg ++ tag).length)) := by
  unfold extract_line_comment
  simp only []
  rw [if_pos h1, if_pos hp]

lemma elc_line_neg (cfg : Cfg) (line tag : Str) (h1 : Cfg.linePre cfg ≠ [])
    (hp : (Cfg.linePre cfg ++ tag).isPrefixOf (stripStr line) = false) :
    extract_line_comment cfg line tag = none := by
  unfold extract_line_comment
  simp only []
  rw [if_pos h1, if_neg (by simp [hp])]

lemma elc_block_pos (cfg : Cfg) (line tag : Str) (h1 : Cfg.linePre cfg = [])
    (h2 : Cfg.blockPre cfg ≠ [])
    (hp : ((Cfg.blockPre cfg ++ tag).isPrefixOf (stripStr line) &&
           (Cfg.blockSuf cfg).isSuffixOf (stripStr line)) = true) :
    extract_line_comment cfg line tag =
      some (stripStr (sliceToNegB (stripStr line)
        (Cfg.blockPre cfg ++ tag).length (Cfg.blockSuf cfg).length)) := by
  unfold extract_line_comment
  simp only []
  rw [if_neg (by simp [h1]), if_pos h2, if_pos hp]

lemma stripStr_ne_imp_ne (line : Str) (h : stripStr line ≠ []) : line ≠ [] := by
  intro hc
  rw [hc] at h
  exact h rfl

lemma prefix_imp_strip_ne (A line : Str) (hA : A ≠ [])
    (hp : A.isPrefixOf (stripStr line) = true) : stripStr line ≠ [] := by
  intro hc
  rw [hc] at hp
  rw [List.isPrefixOf_iff_prefix] at hp
  exact hA (List.prefix_nil.mp hp)

lemma joinNL_nil : joinNL [] = [] := rfl

/-- Counterexample to claim C5: TypeScript/C-style languages have both
comment forms, and a single-line tagged block comment is NOT matched by
_extract_line_comment; extract_comments keeps the line verbatim instead of
removing it. -/
theorem single_line_block_not_matched_cex :
    extract_line_comment cfgC (S "/*T x */") (S "T") = none
    ∧ extract_comments cfgC (S "/*T x */") (S "T") 0 (-1) =
        .ok ([], S "/*T x */") := by
  constructor
  · decide
  · decide

/-- Claim C5 as amended: a scanned line is matched (removed and its trimmed
payload returned) exactly by the comment form the language grammar makes
available to _extract_line_comment: when a line-comment prefix exists, only
trimmed lines starting with linePrefix+tag match (single-line block
comments never match); only when no line-comment form exists does a
single-line block comment starting with blockPrefix+tag and ending with
the block terminator match. -/
theorem extract_line_comment_amended (cfg : Cfg) (line tag : Str)
    (hterm : ∀ c ∈ line, c ≠ '\n' ∧ c ≠ '\r') :
    (Cfg.linePre cfg ≠ [] →
      ((Cfg.linePre cfg ++ tag).isPrefixOf (stripStr line) = true →
        extract_comments cfg line tag 0 (-1) =
          .ok ([stripStr ((stripStr line).drop (Cfg.linePre cfg ++ tag).length)], []))
      ∧ ((Cfg.linePre cfg ++ tag).isPrefixOf (stripStr line) = false →
        extract_comments cfg line tag 0 (-1) = .ok ([], line)))
    ∧ (Cfg.linePre cfg = [] → Cfg.blockPre cfg ≠ [] →
      ((Cfg.blockPre cfg ++ tag).isPrefixOf (stripStr line) &&
         (Cfg.blockSuf cfg).isSuffixOf (stripStr line)) = true →
        extract_comments cfg line tag 0 (-1) =
          .ok ([stripStr (sliceToNegB (stripStr line)
                 (Cfg.blockPre cfg ++ tag).length (Cfg.blockSuf cfg).length)], [])) := by
  have hnl : '\n' ∉ line := fun hm => (hterm '\n' hm).1 rfl
  have hnr : '\r' ∉ line := fun hm => (hterm '\r' hm).2 rfl
  refine ⟨fun h1 => ⟨fun hp => ?_, fun hp => ?_⟩, fun h1 h2 hp => ?_⟩
  · have hne : line ≠ [] := stripStr_ne_imp_ne line
      (prefix_imp_strip_ne _ _ (by simp [h1]) hp)
    have hsl : splitlines line = [line] := splitlines_single line hnl hnr hne
    rw [extract_comments_full cfg line tag (by rw [hsl]; simp), hsl,
      scanLines_cons]
    rw [elc_line_pos cfg (stripStr line) tag h1 (by rwa [stripStr_idem])]
    rw [stripStr_idem]
    rfl
  · by_cases hline : line = []
    · rw [hline]
      exact extract_comments_empty_src cfg tag
    · have hsl : splitlines line = [line] := splitlines_single line hnl hnr hline
      rw [extract_comments_full cfg line tag (by rw [hsl]; simp), hsl,
        scanLines_none cfg tag [line] ?hnone]
      · rw [joinNL_singleton]
      · intro l hl
        rw [List.mem_singleton] at hl
        rw [hl]
        exact elc_line_neg cfg (stripStr line) tag h1 (by rwa [stripStr_idem])
  · have hpre : (Cfg.blockPre cfg ++ tag).isPrefixOf (stripStr line) = true := by
      rcases Bool.and_eq_true_iff.mp hp with ⟨h, _⟩
      exact h
    have hne : line ≠ [] := stripStr_ne_imp_ne line
      (prefix_imp_strip_ne _ _ (by simp [h2]) hpre)
    have hsl : splitlines line = [line] := splitlines_single line hnl hnr hne
    rw [extract_comments_full cfg line tag (by rw [hsl]; simp), hsl,
      scanLines_cons]
    rw [elc_block_pos cfg (stripStr line) tag h1 h2 (by rwa [stripStr_idem])]
    rw [stripStr_idem]
    rfl

/-- Witness for the amended C5 at concrete inputs: a tagged line comment is
matched for the C grammar, and a tagged single-line block comment is
matched for the HTML grammar (which has no line-comment form). -/
theorem extract_line_comment_amended_w :
    (extract_comments cfgC (S "  //T hello ") (S "T") 0 (-1) =
      .ok ([stripStr ((stripStr (S "  //T hello ")).drop
             (Cfg.linePre cfgC ++ S "T").length)], []))
    ∧ (extract_comments cfgHtml (S "<!--T hi -->") (S "T") 0 (-1) =
      .ok ([stripStr (sliceToNegB (stripStr (S "<!--T hi -->"))
             (Cfg.blockPre cfgHtml ++ S "T").length
             (Cfg.blockSuf cfgHtml).length)], [])) :=
  ⟨((extract_line_comment_amended cfgC (S "  //T hello ") (S "T")
      (by decide)).1 (by decide)).1 (by decide),
   (extract_line_comment_amended cfgHtml (S "<!--T hi -->") (S "T")
      (by decide)).2 (by decide) (by decide) (by decide)⟩

lemma splitNl_mem_nonl (s : Str) : ∀ l ∈ splitNl s, '\n' ∉ l := by
  induction s with
  | nil =>
    intro l hl
    simp only [splitNl, List.splitOn, List.splitOnP_nil, List.mem_singleton] at hl
    rw [hl]
    simp
  | cons c rest ih =>
    intro l hl
    rw [splitNl, List.splitOn, List.splitOnP_cons] at hl
    by_cases hc : c = '\n'
    · rw [if_pos (by simp [hc])] at hl
      rcases List.mem_cons.mp hl with h | h
      · rw [h]; simp
      · exact ih l h
    · rw [if_neg (by simp [hc])] at hl
      cases hrest : splitNl rest with
      | nil => exact absurd hrest (by rw [splitNl, List.splitOn]; exact List.splitOnP_ne_nil _ rest)
      | cons h0 t0 =>
        rw [show List.splitOnP (fun x => x == '\n') rest = splitNl rest from rfl,
          hrest] at hl
        simp only [List.modifyHead] at hl
        rcases List.mem_cons.mp hl with h | h
        · rw [h]
          intro hmem
          rcases List.mem_cons.mp hmem with h2 | h2
          · exact hc h2.symm
          · exact ih h0 (by rw [hrest]; exact List.mem_cons_self h0 t0) h2
        · exact ih l (by rw [hrest]; exact List.mem_cons_of_mem h0 h)

lemma normCR_no_cr (s : Str) : '\r' ∉ normCR s := by
  induction s using normCR.induct with
  | case1 => simp [normCR]
  | case2 c rest h ih =>
    rw [normCR_cons_nc c rest h]
    intro hmem
    rcases List.mem_cons.mp hmem with h2 | h2
    · exact h h2.symm
    · exact ih h2
  | case3 c h rest2 ih =>
    rw [normCR.eq_def]
    simp only []
    rw [if_neg h]
    intro hmem
    rcases List.mem_cons.mp hmem with h2 | h2
    · exact absurd h2.symm (by decide)
    · exact ih h2
  | case4 c h rst h2 ih =>
    have hc : c = '\r' := not_not.mp h
    subst hc
    have key : normCR ('\r' :: rst) = '\n' :: normCR rst := by
      rw [normCR.eq_def]
      simp only []
      rw [if_neg (by simp)]
    rw [key]
    intro hmem
    rcases List.mem_cons.mp hmem with hx | hx
    · exact absurd hx.symm (by decide)
    · exact ih hx

lemma mem_joinNL_of_mem (ls : List Str) (l : Str) (hl : l ∈ ls) (x : Char)
    (hx : x ∈ l) : x ∈ joinNL ls := by
  induction ls with
  | nil => exact absurd hl (List.not_mem_nil l)
  | cons a t ih =>
    cases t with
    | nil =>
      rw [joinNL_singleton]
      rw [List.mem_singleton] at hl
      rw [← hl]
      exact hx
    | cons b t2 =>
      rw [joinNL_cons2, List.mem_append]
      rcases List.mem_cons.mp hl with h | h
      · exact Or.inl (h ▸ hx)
      · exact Or.inr (List.mem_cons_of_mem '\n' (ih h))

lemma splitlines_mem_no_term (s : Str) :
    ∀ l ∈ splitlines s, '\n' ∉ l ∧ '\r' ∉ l := by
  intro l hl
  have hl' : l ∈ splitNl (normCR s) := by
    unfold splitlines at hl
    simp only [] at hl
    split at hl
    · exact absurd hl (List.not_mem_nil l)
    · split at hl
      · exact List.dropLast_subset _ hl
      · exact hl
  refine ⟨splitNl_mem_nonl (normCR s) l hl', fun hr => ?_⟩
  apply normCR_no_cr s
  have : normCR s = joinNL (splitNl (normCR s)) := by
    unfold joinNL splitNl
    exact (List.intercalate_splitOn (normCR s) '\n').symm
  rw [this]
  exact mem_joinNL_of_mem _ l hl' '\r' hr

lemma splitlines_crlf_check :
    splitlines (S "a\r\nb\rc\n\nd") = [S "a", S "b", S "c", [], S "d"] := by
  decide

lemma headD_append_ne (l1 l2 : Str) (d : Char) (h : l1 ≠ []) :
    (l1 ++ l2).headD d = l1.headD d := by
  cases l1 with
  | nil => exact absurd rfl h
  | cons a t => rfl

lemma render_single (cfg : Cfg) (text tag : Str) (hnl : '\n' ∉ text)
    (hb : stripStr text ≠ []) :
    lineCommentRender cfg text tag = (Cfg.linePre cfg ++ tag) ++ ' ' :: text := by
  unfold lineCommentRender
  rw [splitNl_nonl text hnl]
  simp only [List.map, if_pos hb]
  rw [joinNL_singleton, List.append_assoc]

/-- Counterexample to claim C4 as universally quantified: inserting the
empty comment text produces a line that line_comment leaves blank, which
extraction cannot recover; the comment list comes back empty and the
residual source keeps a stray blank line. -/
theorem round_trip_cex :
    insert_comment cfgC (S "a") 0 [] (S "T") false = .ok (S "\na")
    ∧ extract_comments cfgC (S "\na") (S "T") 0 (-1) = .ok ([], S "\na")
    ∧ joinNL (splitlines (S "a")) = S "a"
    ∧ S "\na" ≠ S "a"
    ∧ ([] : List Str) ≠ [stripStr []] := by
  refine ⟨by decide, by decide, by decide, by decide, by decide⟩

/-- Claim C4 as amended: for a language with a (non-blank-leading,
terminator-free) line-comment prefix, a single-line comment text that is
non-blank after trimming, and a source none of whose lines is itself a
tagged comment and whose last line is not empty, extracting the tag from
the result of inserting the text as a tagged comment at line 0 recovers
exactly the trimmed text, and the residual source is the original modulo
normalized line endings. -/
theorem insert_extract_round_trip (cfg : Cfg) (source text tag : Str)
    (hlp : Cfg.linePre cfg ≠ [])
    (hws : isWS ((Cfg.linePre cfg).headD ' ') = false)
    (hpt : ∀ c ∈ Cfg.linePre cfg ++ tag, c ≠ '\n' ∧ c ≠ '\r')
    (htx : ∀ c ∈ text, c ≠ '\n' ∧ c ≠ '\r')
    (hblank : stripStr text ≠ [])
    (hsrc : ∀ l ∈ splitlines source,
      extract_line_comment cfg (stripStr l) tag = none)
    (hlast : (splitlines source).getLast? ≠ some []) :
    insert_comment cfg source 0 text tag false =
      .ok (joinNL (lineCommentRender cfg text tag :: splitlines source))
    ∧ extract_comments cfg
        (joinNL (lineCommentRender cfg text tag :: splitlines source)) tag 0 (-1) =
      .ok ([stripStr text], joinNL (splitlines source)) := by
  have hnl : '\n' ∉ text := fun hm => (htx '\n' hm).1 rfl
  have hA : Cfg.linePre cfg ++ tag ≠ [] := by
    intro hc
    exact hlp (List.append_eq_nil.mp hc).1
  have hrender : lineCommentRender cfg text tag =
      (Cfg.linePre cfg ++ tag) ++ ' ' :: text :=
    render_single cfg text tag hnl hblank
  have hcne : lineCommentRender cfg text tag ≠ [] := by
    rw [hrender]
    intro hc
    exact hA (List.append_eq_nil.mp hc).1
  have hcterm : ∀ ch ∈ lineCommentRender cfg text tag, ch ≠ '\n' ∧ ch ≠ '\r' := by
    rw [hrender]
    intro ch hch
    rcases List.mem_append.mp hch with h | h
    · exact hpt ch h
    · rcases List.mem_cons.mp h with h | h
      · rw [h]
        exact ⟨by decide, by decide⟩
      · exact htx ch h
  constructor
  · unfold insert_comment
    simp only [Bool.false_eq_true, if_false, line_comment_ok cfg text tag hlp]
    simp only [bind, Except.bind]
    rw [if_neg (by omega)]
    have h0 : (max 0 (min (0 : Int) ((splitlines source).length : Int))).toNat
        = 0 := by omega
    rw [h0]
    simp
  · have hcs : splitlines (joinNL (lineCommentRender cfg text tag ::
        splitlines source)) =
        lineCommentRender cfg text tag :: splitlines source := by
      apply splitlines_joinNL
      · intro l hl
        rcases List.mem_cons.mp hl with h | h
        · rw [h]
          constructor
          · intro hm; exact (hcterm '\n' hm).1 rfl
          · intro hm; exact (hcterm '\r' hm).2 rfl
        · exact splitlines_mem_no_term source l h
      · simp
      · cases hls : splitlines source with
        | nil =>
          simp only [List.getLast?_singleton]
          intro hc
          exact hcne (by injection hc)
        | cons a t =>
          rw [List.getLast?_cons_cons]
          rw [hls] at hlast
          exact hlast
    rw [extract_comments_full cfg _ tag (by rw [hcs]; simp), hcs,
      scanLines_cons]
    have hsc : stripStr (lineCommentRender cfg text tag) =
        (Cfg.linePre cfg ++ tag) ++ ' ' :: rstripP isWS text := by
      rw [hrender]
      exact stripStr_tagged (Cfg.linePre cfg ++ tag) text hA
        (by rw [headD_append_ne _ _ _ hlp]; exact hws) hblank
    have helc : extract_line_comment cfg
        (stripStr (lineCommentRender cfg text tag)) tag = some (stripStr text) := by
      rw [elc_line_pos cfg _ tag hlp ?hpre]
      case hpre =>
        rw [stripStr_idem, hsc, List.isPrefixOf_iff_prefix]
        exact List.prefix_append _ _
      rw [stripStr_idem, hsc, List.drop_left, stripStr_payload]
    rw [helc]
    rw [scanLines_none cfg tag (splitlines source) hsrc]

/-- Witness for the amended C4 at concrete inputs. -/
theorem insert_extract_round_trip_w :
    insert_comment cfgC (S "x = 1\ny = 2") 0 (S " note ") (S "T") false =
      .ok (joinNL (lineCommentRender cfgC (S " note ") (S "T")
             :: splitlines (S "x = 1\ny = 2")))
    ∧ extract_comments cfgC
        (joinNL (lineCommentRender cfgC (S " note ") (S "T")
           :: splitlines (S "x = 1\ny = 2"))) (S "T") 0 (-1) =
      .ok ([stripStr (S " note ")], joinNL (splitlines (S "x = 1\ny = 2"))) :=
  insert_extract_round_trip cfgC (S "x = 1\ny = 2") (S " note ") (S "T")
    (by decide) (by decide) (by decide) (by decide) (by decide) (by decide)
    (by decide)

lemma normList_absent (d : Dict) (k msg : Str) (h : d.lookup k = none) :
    normList d k msg = .ok (d ++ [(k, PV.plist [])]) := by
  unfold normList
  rw [if_pos (by rw [h]; simp [pvTruthy])]
  unfold dictSet
  rw [h]
  simp

/-- Counterexample to claim C6: a payload carrying only the required fields
passes validation, yet output is NOT defaulted — the returned dictionary
still has no output key (and with a parser present the same payload is
rejected outright instead of being defaulted). -/
theorem output_not_defaulted_cex :
    data_check false none (fun _ => none)
      [(S "overview", PV.pstr (S "a")), (S "review", PV.pstr (S "b"))] =
      .res [(S "overview", PV.pstr (S "a")), (S "review", PV.pstr (S "b")),
            (S "notes", PV.plist []), (S "issues", PV.plist []),
            (S "imperfections", PV.plist []), (S "impediments", PV.plist [])] none
    ∧ List.lookup (S "output")
        [(S "overview", PV.pstr (S "a")), (S "review", PV.pstr (S "b")),
         (S "notes", PV.plist []), (S "issues", PV.plist []),
         (S "imperfections", PV.plist []), (S "impediments", PV.plist [])] = none
    ∧ data_check true none (fun _ => none)
        [(S "overview", PV.pstr (S "a")), (S "review", PV.pstr (S "b"))] =
      .fatal (S "[ERR] _data_check: <output> must be a string") := by
  refine ⟨by decide, by decide, by decide⟩

/-- Claim C6 as amended: validation requires overview and review (their
absence is a validation error); on success the four optional list fields
notes, issues, imperfections and impediments are defaulted to empty lists
when absent, while output is never defaulted — without a parser it is left
absent, and with a parser a missing output is itself a validation error. -/
theorem data_check_amended (d : Dict) (parseF : Str → Option Str)
    (exp : Option Str)
    (herr : d.lookup (S "error") = none)
    (hn : d.lookup (S "notes") = none)
    (hi : d.lookup (S "issues") = none)
    (hm : d.lookup (S "imperfections") = none)
    (hp : d.lookup (S "impediments") = none) :
    (∀ hasParser : Bool,
      (d.lookup (S "overview") = none ∨ d.lookup (S "review") = none) →
      data_check hasParser exp parseF d =
        .fatal (S "[ERR] _data_check: required keys not found"))
    ∧ ((d.lookup (S "overview")).isSome → (d.lookup (S "review")).isSome →
      (data_check false exp parseF d =
        .res (d ++ [(S "notes", PV.plist []), (S "issues", PV.plist []),
                    (S "imperfections", PV.plist []),
                    (S "impediments", PV.plist [])]) none
       ∧ (d ++ [(S "notes", PV.plist []), (S "issues", PV.plist []),
                (S "imperfections", PV.plist []),
                (S "impediments", PV.plist [])]).lookup (S "output") =
           d.lookup (S "output")
       ∧ (d ++ [(S "notes", PV.plist []), (S "issues", PV.plist []),
                (S "imperfections", PV.plist []),
                (S "impediments", PV.plist [])]).lookup (S "notes") =
           some (PV.plist [])
       ∧ (d ++ [(S "notes", PV.plist []), (S "issues", PV.plist []),
                (S "imperfections", PV.plist []),
                (S "impediments", PV.plist [])]).lookup (S "impediments") =
           some (PV.plist []))
      ∧ (d.lookup (S "output") = none →
        data_check true exp parseF d =
          .fatal (S "[ERR] _data_check: <output> must be a string"))) := by
  have step : ∀ hasParser : Bool, data_check hasParser exp parseF d =
      dataCheckRequired hasParser exp parseF d := by
    intro hasParser
    unfold data_check
    rw [herr]
  have hl1 : (d ++ [((S "notes" : Str), PV.plist [])]).lookup (S "issues") =
      none := by
    rw [List.lookup_append, hi]
    decide
  have hl2 : ((d ++ [((S "notes" : Str), PV.plist [])]) ++
      [((S "issues" : Str), PV.plist [])]).lookup (S "imperfections") = none := by
    rw [List.lookup_append, List.lookup_append, hm]
    decide
  have hl3 : (((d ++ [((S "notes" : Str), PV.plist [])]) ++
      [((S "issues" : Str), PV.plist [])]) ++
      [((S "imperfections" : Str), PV.plist [])]).lookup (S "impediments") =
      none := by
    rw [List.lookup_append, List.lookup_append, List.lookup_append, hp]
    decide
  constructor
  · intro hasParser hreq
    rw [step hasParser]
    unfold dataCheckRequired
    rw [if_pos]
    intro ⟨h1, h2⟩
    rcases hreq with h | h
    · rw [h] at h1
      exact absurd h1 (by decide)
    · rw [h] at h2
      exact absurd h2 (by decide)
  · intro hov hrv
    have hreq : ¬ ¬ ((d.lookup (S "overview")).isSome ∧
        (d.lookup (S "review")).isSome) := not_not.mpr ⟨hov, hrv⟩
    have hassoc : ((((d ++ [((S "notes" : Str), PV.plist [])]) ++
        [((S "issues" : Str), PV.plist [])]) ++
        [((S "imperfections" : Str), PV.plist [])]) ++
        [((S "impediments" : Str), PV.plist [])]) =
        d ++ [(S "notes", PV.plist []), (S "issues", PV.plist []),
              (S "imperfections", PV.plist []), (S "impediments", PV.plist [])] := by
      simp
    refine ⟨⟨?_, ?_, ?_, ?_⟩, ?_⟩
    · rw [step false]
      unfold dataCheckRequired
      rw [if_neg hreq, normList_absent d _ _ hn]
      dsimp only
      rw [normList_absent _ _ _ hl1]
      dsimp only
      rw [normList_absent _ _ _ hl2]
      dsimp only
      rw [normList_absent _ _ _ hl3]
      dsimp only
      rw [hassoc, if_neg (by simp)]
    · rw [List.lookup_append]
      cases hout : d.lookup (S "output") with
      | some v => rfl
      | none => decide
    · rw [List.lookup_append, hn]
      decide
    · rw [List.lookup_append, hp]
      decide
    · intro hout
      rw [step true]
      unfold dataCheckRequired
      rw [if_neg hreq, normList_absent d _ _ hn]
      dsimp only
      rw [normList_absent _ _ _ hl1]
      dsimp only
      rw [normList_absent _ _ _ hl2]
      dsimp only
      rw [normList_absent _ _ _ hl3]
      dsimp only
      rw [show ((((d ++ [((S "notes" : Str), PV.plist [])]) ++
        [((S "issues" : Str), PV.plist [])]) ++
        [((S "imperfections" : Str), PV.plist [])]) ++
        [((S "impediments" : Str), PV.plist [])]).lookup (S "output") = none by
          rw [List.lookup_append, List.lookup_append, List.lookup_append,
            List.lookup_append, hout]
          decide]
      rfl

/-- Witness for the amended C6 at a concrete payload. -/
theorem data_check_amended_w :
    (data_check false none (fun _ => none)
      [(S "overview", PV.pstr (S "a")), (S "review", PV.pstr (S "b")),
       (S "output", PV.pstr (S "code"))] =
      .res [(S "overview", PV.pstr (S "a")), (S "review", PV.pstr (S "b")),
            (S "output", PV.pstr (S "code")),
            (S "notes", PV.plist []), (S "issues", PV.plist []),
            (S "imperfections", PV.plist []), (S "impediments", PV.plist [])] none)
    ∧ (data_check true none (fun _ => none)
      [(S "review", PV.pstr (S "b"))] =
      .fatal (S "[ERR] _data_check: required keys not found")) :=
  ⟨(((data_check_amended
      [(S "overview", PV.pstr (S "a")), (S "review", PV.pstr (S "b")),
       (S "output", PV.pstr (S "code"))] (fun _ => none) none
      (by decide) (by decide) (by decide) (by decide) (by decide)).2
      (by decide) (by decide)).1).1,
   (data_check_amended [(S "review", PV.pstr (S "b"))] (fun _ => none) none
      (by decide) (by decide) (by decide) (by decide) (by decide)).1 true
      (Or.inl (by decide))⟩

lemma sameB_parts {t1 x1 c1 t2 x2 c2 : _} {n1 n2 : Bool}
    (h : sameB (Node.mk t1 n1 x1 c1) (Node.mk t2 n2 x2 c2) = true) :
    t1 = t2 ∧ n1 = n2 ∧ sameL c1 c2 = true ∧
    (isSubstr (S "comment") (toLowerStr t1) = false →
      ((n1 = true → c1.any (fun c => c.nnamed) = false → x1 = x2)
       ∧ (n1 = false → x1 = x2))) := by
  rw [sameB] at h
  simp only [Bool.and_eq_true, decide_eq_true_eq] at h
  obtain ⟨⟨⟨ht, hn⟩, hl⟩, hrest⟩ := h
  refine ⟨ht, hn, hl, fun hnc => ⟨fun hn1 hany => ?_, fun hn1 => ?_⟩⟩
  · rw [hnc, hn1, hany] at hrest
    simpa using hrest
  · rw [hnc, hn1] at hrest
    simpa using hrest

lemma sameL_cons {a b : Node} {as bs : List Node}
    (h : sameL (a :: as) (b :: bs) = true) :
    sameB a b = true ∧ sameL as bs = true := by
  rw [sameL] at h
  simpa [Bool.and_eq_true] using h

lemma sameL_nil_cons (b : Node) (bs : List Node) :
    sameL [] (b :: bs) = false := rfl

lemma sameL_cons_nil (a : Node) (as : List Node) :
    sameL (a :: as) [] = false := rfl

lemma sameL_shape : ∀ {l1 l2 : List Node}, sameL l1 l2 = true →
    (l1 = [] ↔ l2 = []) := by
  intro l1 l2 h
  cases l1 <;> cases l2 <;> simp_all [sameL]

lemma sameL_any_named : ∀ {l1 l2 : List Node}, sameL l1 l2 = true →
    l1.any (fun c => c.nnamed) = l2.any (fun c => c.nnamed) := by
  intro l1 l2 h
  induction l1 generalizing l2 with
  | nil =>
    cases l2 with
    | nil => rfl
    | cons b bs => simp [sameL_nil_cons] at h
  | cons a as ih =>
    cases l2 with
    | nil => simp [sameL_cons_nil] at h
    | cons b bs =>
      obtain ⟨hab, ht⟩ := sameL_cons h
      cases a with | mk t1 n1 x1 c1 =>
      cases b with | mk t2 n2 x2 c2 =>
      obtain ⟨_, hn, _, _⟩ := sameB_parts hab
      simp only [List.any_cons]
      rw [show Node.nnamed (Node.mk t1 n1 x1 c1) = n1 from rfl,
        show Node.nnamed (Node.mk t2 n2 x2 c2) = n2 from rfl, hn, ih ht]

lemma sameB_comment_eq {a b : Node} (h : sameB a b = true) :
    isCommentNode a = isCommentNode b := by
  cases a with | mk t1 n1 x1 c1 =>
  cases b with | mk t2 n2 x2 c2 =>
  obtain ⟨ht, _, _, _⟩ := sameB_parts h
  rw [isCommentNode, isCommentNode, Node.ntype, Node.ntype, ht]

lemma sameB_named_eq {a b : Node} (h : sameB a b = true) :
    a.nnamed = b.nnamed := by
  cases a with | mk t1 n1 x1 c1 =>
  cases b with | mk t2 n2 x2 c2 =>
  obtain ⟨_, hn, _, _⟩ := sameB_parts h
  rw [Node.nnamed, Node.nnamed, hn]

lemma sameB_text_eq_token {a b : Node} (h : sameB a b = true)
    (hn : a.nnamed = false) (hc : isCommentNode a = false) :
    a.ntext = b.ntext := by
  cases a with | mk t1 n1 x1 c1 =>
  cases b with | mk t2 n2 x2 c2 =>
  obtain ⟨_, _, _, hrest⟩ := sameB_parts h
  exact (hrest hc).2 hn

lemma tokensAux_congr (hashF : Str → Str) :
    ∀ {l1 l2 : List Node}, sameL l1 l2 = true →
    ∀ idx, tokensAux hashF l1 idx = tokensAux hashF l2 idx := by
  intro l1 l2 h
  induction l1 generalizing l2 with
  | nil =>
    cases l2 with
    | nil => intro idx; rfl
    | cons b bs => simp [sameL_nil_cons] at h
  | cons a as ih =>
    cases l2 with
    | nil => simp [sameL_cons_nil] at h
    | cons b bs =>
      obtain ⟨hab, ht⟩ := sameL_cons h
      intro idx
      rw [tokensAux, tokensAux]
      rw [← sameB_named_eq hab, ← sameB_comment_eq hab]
      by_cases hn : a.nnamed = true
      · rw [hn]
        simp only [if_true]
        by_cases hc : isCommentNode a = true
        · rw [hc]
          simp only [if_true]
          exact ih ht idx
        · rw [Bool.not_eq_true] at hc
          rw [hc]
          simp only [Bool.false_eq_true, if_false]
          exact ih ht (idx + 1)
      · rw [Bool.not_eq_true] at hn
        rw [hn]
        simp only [Bool.false_eq_true, if_false]
        by_cases hc : isCommentNode a = true
        · rw [hc]
          simp only [if_true]
          exact ih ht idx
        · rw [Bool.not_eq_true] at hc
          rw [hc]
          simp only [Bool.false_eq_true, if_false]
          rw [← sameB_text_eq_token hab hn hc]
          by_cases hx : a.ntext = []
          · rw [if_neg (by simp [hx]), if_neg (by simp [hx])]
            exact ih ht idx
          · rw [if_pos (by simpa using hx), if_pos (by simpa using hx), ih ht idx]

lemma congr_main (hashF : Str → Str) : ∀ N : Nat,
    (∀ a b : Node, sizeOf a ≤ N → isCommentNode a = false → sameB a b = true →
      nodeToDict hashF a = nodeToDict hashF b)
    ∧ (∀ l1 l2 : List Node, sizeOf l1 ≤ N → sameL l1 l2 = true →
      kidsOf hashF l1 = kidsOf hashF l2) := by
  intro N
  induction N with
  | zero =>
    constructor
    · intro a b hle _ _
      exfalso
      cases a with | mk t n x c =>
      simp at hle
    · intro l1 l2 hle _
      exfalso
      cases l1 with
      | nil => simp at hle
      | cons a as => simp at hle
  | succ N ih =>
    constructor
    · intro a b hle hnc hsame
      cases a with | mk t1 n1 x1 c1 =>
      cases b with | mk t2 n2 x2 c2 =>
      obtain ⟨ht, hn, hl, hrest⟩ := sameB_parts hsame
      subst ht
      subst hn
      have hsz : sizeOf c1 ≤ N := by
        simp at hle
        omega
      have hkids : kidsOf hashF c1 = kidsOf hashF c2 := ih.2 c1 c2 hsz hl
      have htoks : tokensAux hashF c1 0 = tokensAux hashF c2 0 :=
        tokensAux_congr hashF hl 0
      have hany : (c1.any fun c => c.nnamed) = c2.any fun c => c.nnamed :=
        sameL_any_named hl
      simp only [nodeToDict]
      rw [hkids, htoks, hany]
      by_cases hvm : (n1 && !(c2.any fun c => c.nnamed)) = true
      · have hn1 : n1 = true := by
          revert hvm
          cases n1 <;> simp
        have hany2 : (c2.any fun c => c.nnamed) = false := by
          revert hvm
          cases (c2.any fun c => c.nnamed) <;> simp
        have hany1 : (c1.any fun c => c.nnamed) = false := by rw [hany]; exact hany2
        have hx : x1 = x2 := (hrest hnc).1 hn1 hany1
        rw [hx]
      · have hvm' : (n1 && !(c2.any fun c => c.nnamed)) = false := by
          revert hvm
          cases (n1 && !(c2.any fun c => c.nnamed)) <;> simp
        rw [show (n1 && !(c2.any fun c => c.nnamed) && decide (x1 ≠ [])) = false by
            simp [hvm'],
          show (n1 && !(c2.any fun c => c.nnamed) && decide (x2 ≠ [])) = false by
            simp [hvm']]
        rfl
    · intro l1 l2 hle hl
      cases l1 with
      | nil =>
        cases l2 with
        | nil => rfl
        | cons b bs => simp [sameL_nil_cons] at hl
      | cons a as =>
        cases l2 with
        | nil => simp [sameL_cons_nil] at hl
        | cons b bs =>
          obtain ⟨hab, ht⟩ := sameL_cons hl
          have hsza : sizeOf a ≤ N := by
            simp at hle
            omega
          have hszas : sizeOf as ≤ N := by
            simp at hle
            omega
          simp only [kidsOf]
          rw [← sameB_named_eq hab, ← sameB_comment_eq hab]
          by_cases hk : (a.nnamed && !(isCommentNode a)) = true
          · have hnca : isCommentNode a = false := by
              revert hk
              cases isCommentNode a <;> simp
            rw [if_pos hk, if_pos hk]
            rw [ih.1 a b hsza hnca hab, ih.2 as bs hszas ht]
          · rw [if_neg hk, if_neg hk]
            exact ih.2 as bs hszas ht

/-- Claim C1: the fingerprint is comment-insensitive.  For every hash
function, language id and pair of syntax trees that differ only in the
text of comment nodes (sameB), parse() returns identical output strings,
because node_to_dict skips comment nodes and tokens at every recursion
level.  The root node is the syntax tree's top-level container and is
itself never a comment. -/
theorem parse_comment_insensitive (hashF : Str → Str) (lang : Str)
    (a b : Node) (hroot : isCommentNode a = false) (hsame : sameB a b = true) :
    theParse hashF lang a = theParse hashF lang b := by
  unfold theParse
  rw [(congr_main hashF (sizeOf a)).1 a b le_rfl hroot hsame]

/-- Witness for C1 at concrete trees: two one-statement modules whose
comment child (and the root span that contains it) differ only in the
comment text. -/
theorem parse_comment_insensitive_w :
    theParse (fun s => s) (S "python")
      (.mk (S "module") true (S "x #a")
        [.mk (S "identifier") true (S "x") [],
         .mk (S "comment") true (S "#a") []]) =
    theParse (fun s => s) (S "python")
      (.mk (S "module") true (S "x #bb")
        [.mk (S "identifier") true (S "x") [],
         .mk (S "comment") true (S "#bb") []]) :=
  parse_comment_insensitive (fun s => s) (S "python") _ _ (by decide) (by decide)

lemma persistsOf_append (t1 t2 : List Event) :
    persistsOf (t1 ++ t2) = persistsOf t1 ++ persistsOf t2 :=
  List.filterMap_append t1 t2 _

lemma persistsOf_execRev (a : AttemptR) : persistsOf [Event.execRev a] = [] := rfl

lemma persistsOf_logFail (i : Nat) (e : Option Str) :
    persistsOf [Event.logFail i e] = [] := rfl

lemma persistsOf_persist (d : RData) : persistsOf [Event.persist d] = [d] := rfl

lemma persistsOf_two (a : AttemptR) (i : Nat) (e : Option Str) :
    persistsOf [Event.execRev a, Event.logFail i e] = [] := rfl

lemma popRev_eq (st : St) (a : AttemptR) (rest : List AttemptR)
    (h : st.revQ = a :: rest) :
    popRev st = (a, { st with revQ := rest,
                              trace := st.trace ++ [Event.execRev a] }) := by
  unfold popRev
  rw [h]
  rfl

lemma insert_comment_line_ok (cfg : Cfg) (source : Str) (line : Int)
    (c tag : Str) (hlp : Cfg.linePre cfg ≠ []) :
    ∃ r, insert_comment cfg source line c tag false = .ok r := by
  unfold insert_comment
  simp only [Bool.false_eq_true, if_false, line_comment_ok cfg c tag hlp]
  simp only [bind, Except.bind]
  exact ⟨_, rfl⟩

lemma theUpdate_ok (cfg : Cfg) (ai lang ts : Str) (d : RData) (req : Str)
    (hlp : Cfg.linePre cfg ≠ []) :
    ∃ txt w, theUpdate cfg ai lang ts d req = .ok (txt, w) := by
  unfold theUpdate
  simp only []
  obtain ⟨⟨r1, s1⟩, h1⟩ :=
    extract_comments_ok cfg (stripNl (d.output.getD [])) tagRev (-1) le_rfl
  rw [h1]
  simp only [bind, Except.bind]
  obtain ⟨⟨r2, s2⟩, h2⟩ := extract_comments_ok cfg s1 tagReq (-1) le_rfl
  rw [h2]
  dsimp only
  by_cases hreq : req ≠ []
  · rw [if_pos hreq]
    obtain ⟨r3, h3⟩ := insert_comment_line_ok cfg s2 0 (req ++ S "\n") tagReq hlp
    rw [h3]
    simp only [bind, Except.bind]
    obtain ⟨r4, h4⟩ := insert_comment_line_ok cfg r3 0
      (updateTxt ai lang ts d) tagRev hlp
    rw [h4]
    exact ⟨_, _, rfl⟩
  · rw [if_neg hreq]
    simp only [pure, Except.pure, bind, Except.bind]
    obtain ⟨r4, h4⟩ := insert_comment_line_ok cfg s2 0
      (updateTxt ai lang ts d) tagRev hlp
    rw [h4]
    exact ⟨_, _, rfl⟩

lemma reviewGo_mismatch (cfg : Cfg) (ai ts lang source req : Str)
    (retry : Nat) (hlp : Cfg.linePre cfg ≠ []) :
    ∀ m, 1 ≤ m → ∀ i st dL eL, i + m = retry →
    (∀ k, k < m → ∃ d e, st.revQ.get? k = some ⟨some d, some e⟩) →
    st.revQ.get? (m - 1) = some ⟨some dL, some eL⟩ →
    ∃ txt st', reviewGo cfg ai ts lang source req retry i st =
        .ok (some txt, st')
      ∧ persistsOf st'.trace =
          persistsOf st.trace ++ [{ dL with output := some source }] := by
  intro m
  induction m with
  | zero => intro h; exact absurd h (by omega)
  | succ m ihm =>
    intro _ i st dL eL hsum hall hlast
    obtain ⟨d0, e0, h0⟩ := hall 0 (Nat.succ_pos m)
    cases hq : st.revQ with
    | nil =>
      rw [hq] at h0
      simp at h0
    | cons a rest =>
      rw [hq] at h0
      rw [List.get?_cons_zero] at h0
      have ha : a = ⟨some d0, some e0⟩ := by injection h0
      rw [reviewGo, if_pos (show i < retry by omega), popRev_eq st a rest hq,
        ha]
      dsimp only
      by_cases hm : 1 ≤ m
      · rw [if_pos (show i < retry - 1 by omega)]
        obtain ⟨txt, st', hrun, hpers⟩ := ihm hm (i + 1)
          (St.mk st.file rest st.fixQ
            ((st.trace ++ [Event.execRev ⟨some d0, some e0⟩]) ++
              [Event.logFail (i + 1) (some e0)])) dL eL (by omega)
          (fun k hk => by
            have := hall (k + 1) (by omega)
            rw [hq, List.get?_cons_succ] at this
            exact this)
          (by
            have : st.revQ.get? (m + 1 - 1) = some ⟨some dL, some eL⟩ := hlast
            rw [hq] at this
            rw [show m + 1 - 1 = (m - 1) + 1 by omega,
              List.get?_cons_succ] at this
            exact this)
        refine ⟨txt, st', hrun, ?_⟩
        rw [hpers]
        simp [persistsOf_append, persistsOf_two]
      · have hm0 : m = 0 := by omega
        rw [if_neg (show ¬ i < retry - 1 by omega)]
        obtain ⟨txt, w, hupd⟩ := theUpdate_ok cfg ai lang ts
          { d0 with output := some source } req hlp
        rw [hupd]
        have hdl : d0 = dL := by
          rw [hm0] at hlast
          rw [hq, List.get?_cons_zero] at hlast
          have h1 := congrArg (fun o => o.bind AttemptR.data) (h0.symm.trans hlast)
          simp at h1
          exact h1
        refine ⟨txt, _, rfl, ?_⟩
        rw [hdl]
        simp [persistsOf_append, persistsOf_two]
        rfl

lemma reviewGo_hard (cfg : Cfg) (ai ts lang source req : Str) (retry : Nat) :
    ∀ m i st, i + m = retry →
    (∀ k, k < m → ∃ a, st.revQ.get? k = some a ∧ a.data = none) →
    ∃ st', reviewGo cfg ai ts lang source req retry i st = .ok (none, st')
      ∧ persistsOf st'.trace = persistsOf st.trace ∧ st'.file = st.file := by
  intro m
  induction m with
  | zero =>
    intro i st hsum _
    rw [reviewGo, if_neg (show ¬ i < retry by omega)]
    exact ⟨st, rfl, rfl, rfl⟩
  | succ m ihm =>
    intro i st hsum hall
    obtain ⟨a, h0, hdata⟩ := hall 0 (Nat.succ_pos m)
    cases hq : st.revQ with
    | nil =>
      rw [hq] at h0
      simp at h0
    | cons a0 rest =>
      rw [hq, List.get?_cons_zero] at h0
      obtain ⟨adata, aerr⟩ := a
      cases hdata
      have ha : a0 = ⟨none, aerr⟩ := by injection h0
      rw [reviewGo, if_pos (show i < retry by omega), popRev_eq st a0 rest hq,
        ha]
      dsimp only
      by_cases hm : 1 ≤ m
      · rw [if_pos (show i < retry - 1 by omega)]
        obtain ⟨st', hrun, hpers, hfile⟩ := ihm (i + 1)
          (St.mk st.file rest st.fixQ
            ((st.trace ++ [Event.execRev ⟨none, aerr⟩]) ++
              [Event.logFail (i + 1) aerr])) (by omega)
          (fun k hk => by
            have := hall (k + 1) (by omega)
            rw [hq, List.get?_cons_succ] at this
            exact this)
        refine ⟨st', hrun, ?_, hfile⟩
        rw [hpers]
        simp [persistsOf_append, persistsOf_two]
      · rw [if_neg (show ¬ i < retry - 1 by omega)]
        refine ⟨_, rfl, ?_, rfl⟩
        simp [persistsOf_append, persistsOf_two]

/-- Claim C2: with retry budget n >= 1, if every attempt is a fingerprint
mismatch (the executor returned data together with a mismatch error), the
session persists exactly one artifact, built from the last attempt's
payload with its output replaced by the original code; if every attempt is
a hard error (no data), the session returns failure, persists nothing and
leaves the artifact file untouched. -/
theorem review_exhaustion (cfg : Cfg) (ai ts langO commentLang source req : Str)
    (retry : Nat) (file : Str) (Q fq : List AttemptR)
    (hlp : Cfg.linePre cfg ≠ []) (hr : 1 ≤ retry) :
    ((∀ k, k < retry → ∃ d e, Q.get? k = some ⟨some d, some e⟩) →
      ∀ dL eL, Q.get? (retry - 1) = some ⟨some dL, some eL⟩ →
      ∃ txt st', theReview cfg ai ts langO commentLang source req retry
          ⟨file, Q, fq, []⟩ = .ok (some txt, st')
        ∧ persistsOf st'.trace = [{ dL with output := some source }])
    ∧ ((∀ k, k < retry → ∃ a, Q.get? k = some a ∧ a.data = none) →
      ∃ st', theReview cfg ai ts langO commentLang source req retry
          ⟨file, Q, fq, []⟩ = .ok (none, st')
        ∧ persistsOf st'.trace = [] ∧ st'.file = file) := by
  constructor
  · intro hall dL eL hlast
    obtain ⟨txt, st', hrun, hpers⟩ := reviewGo_mismatch cfg ai ts
      (if stripStr langO = [] then commentLang else stripStr langO)
      source req retry hlp retry hr 0 ⟨file, Q, fq, []⟩ dL eL (by omega)
      hall hlast
    refine ⟨txt, st', ?_, ?_⟩
    · rw [theReview]
      exact hrun
    · rw [hpers]
      rfl
  · intro hall
    obtain ⟨st', hrun, hpers, hfile⟩ := reviewGo_hard cfg ai ts
      (if stripStr langO = [] then commentLang else stripStr langO)
      source req retry retry 0 ⟨file, Q, fq, []⟩ (by omega) hall
    refine ⟨st', ?_, ?_, hfile⟩
    · rw [theReview]
      exact hrun
    · rw [hpers]
      rfl

/-- Witness for C2: budget 3 with three mismatching attempts persists the
original code with the last payload; budget 2 with two hard errors
persists nothing. -/
theorem review_exhaustion_w :
    (∃ txt st', theReview cfgC (S "claude") (S "TS") [] (S "English")
        (S "x = 1") [] 3
        ⟨S "x = 1",
         [⟨some ⟨some (S "BAD1"), S "o1", S "r1", [], [], [], [], []⟩,
           some (S "mismatch")⟩,
          ⟨some ⟨some (S "BAD2"), S "o2", S "r2", [], [], [], [], []⟩,
           some (S "mismatch")⟩,
          ⟨some ⟨some (S "BAD3"), S "o3", S "r3", [], [], [], [], []⟩,
           some (S "mismatch")⟩], [], []⟩ = .ok (some txt, st')
      ∧ persistsOf st'.trace =
          [{ (⟨some (S "BAD3"), S "o3", S "r3", [], [], [], [], []⟩ : RData)
             with output := some (S "x = 1") }])
    ∧ (∃ st', theReview cfgC (S "claude") (S "TS") [] (S "English")
        (S "x = 1") [] 2
        ⟨S "x = 1", [⟨none, some (S "boom")⟩, ⟨none, some (S "crash")⟩],
         [], []⟩ = .ok (none, st')
      ∧ persistsOf st'.trace = [] ∧ st'.file = S "x = 1") :=
  ⟨(review_exhaustion cfgC (S "claude") (S "TS") [] (S "English") (S "x = 1")
      [] 3 (S "x = 1")
      [⟨some ⟨some (S "BAD1"), S "o1", S "r1", [], [], [], [], []⟩,
        some (S "mismatch")⟩,
       ⟨some ⟨some (S "BAD2"), S "o2", S "r2", [], [], [], [], []⟩,
        some (S "mismatch")⟩,
       ⟨some ⟨some (S "BAD3"), S "o3", S "r3", [], [], [], [], []⟩,
        some (S "mismatch")⟩] [] (by decide) (by decide)).1
      (by
        intro k hk
        interval_cases k
        · exact ⟨_, _, rfl⟩
        · exact ⟨_, _, rfl⟩
        · exact ⟨_, _, rfl⟩)
      _ _ rfl,
   (review_exhaustion cfgC (S "claude") (S "TS") [] (S "English") (S "x = 1")
      [] 2 (S "x = 1")
      [⟨none, some (S "boom")⟩, ⟨none, some (S "crash")⟩] [] (by decide)
      (by decide)).2
      (by
        intro k hk
        interval_cases k
        · exact ⟨_, rfl, rfl⟩
        · exact ⟨_, rfl, rfl⟩)⟩

/-- Claim C10: when the code-only input left after stripping review and
requirement tagged comments is empty, both the review entry point and the
fix entry point return the empty string at once with the session state
untouched: no executor call is recorded and the artifact file is not
written. -/
theorem empty_input_short_circuit (cfg : Cfg) (ai ts langO : Str)
    (tmpB : Bool) (context : Str) (retry fuel : Nat) (st : St)
    (pr cl reqs : Str)
    (hload : loadFile cfg st.file = .ok (pr, cl, reqs, []))
    (hfuel : 1 ≤ fuel) :
    theReviewFileReview cfg ai ts langO retry st = .ok (some [], st)
    ∧ fixReview cfg ai ts langO tmpB context retry fuel st =
        .ok (some [], st) := by
  constructor
  · unfold theReviewFileReview
    rw [hload]
    simp only [bind, Except.bind]
    simp
  · cases fuel with
    | zero => exact absurd hfuel (by omega)
    | succ fuel =>
      rw [fixReview]
      rw [hload]
      simp only [bind, Except.bind]
      simp

lemma to_fix_impediments (review : Str)
    (h : isSubstr (S "---------- [Impediments]") review = true) :
    to_fix review = false := by
  unfold to_fix
  by_cases hiss : isSubstr (S "---------- [Issues]") review = true
  · rw [if_neg (by simp [hiss]), if_pos h]
  · rw [if_pos (by simpa using hiss)]

/-- Claim C3: in a fix session whose artifact has been reviewed before, a
latest review reporting impediments is a hard stop: the review is returned
unchanged and the session state is untouched — the fix-oriented executor
is never invoked and nothing is retried, regardless of remaining budget. -/
theorem impediments_hard_stop (cfg : Cfg) (ai ts langO : Str) (tmpB : Bool)
    (context : Str) (retry fuel : Nat) (st : St) (pr cl reqs input : Str)
    (hload : loadFile cfg st.file = .ok (pr, cl, reqs, input))
    (hne : input ≠ [])
    (hrev : isSubstr (S "---------- [Review]") pr = true)
    (himp : isSubstr (S "---------- [Impediments]") pr = true)
    (hfuel : 1 ≤ fuel) :
    fixReview cfg ai ts langO tmpB context retry fuel st = .ok (some pr, st) := by
  cases fuel with
  | zero => exact absurd hfuel (by omega)
  | succ fuel =>
    rw [fixReview]
    rw [hload]
    simp only [bind, Except.bind]
    rw [if_neg hne, if_neg (by simp [hrev]),
      if_pos (by simp [to_fix_impediments pr himp])]

/-- Witness for C10 at a concrete artifact holding only tagged comments. -/
theorem empty_input_short_circuit_w :
    theReviewFileReview cfgC (S "claude") (S "TS") [] 3
      ⟨S "//\\/ old review", [], [], []⟩ =
      .ok (some [], ⟨S "//\\/ old review", [], [], []⟩)
    ∧ fixReview cfgC (S "claude") (S "TS") [] false [] 3 5
        ⟨S "//\\/ old review", [], [], []⟩ =
      .ok (some [], ⟨S "//\\/ old review", [], [], []⟩) :=
  empty_input_short_circuit cfgC (S "claude") (S "TS") [] false [] 3 5
    ⟨S "//\\/ old review", [], [], []⟩ (S "old review") (S "English") []
    (by decide) (by decide)

/-- Witness for C3 at a concrete reviewed artifact reporting impediments. -/
theorem impediments_hard_stop_w :
    fixReview cfgC (S "claude") (S "TS") [] false [] 7 3
      ⟨S "//\\/ ---------- [Review]\n//\\/ ---------- [Issues]\n//\\/ ---------- [Impediments]\nx = 1",
       [⟨none, none⟩], [⟨none, none⟩], []⟩ =
      .ok (some (S "---------- [Review]\n---------- [Issues]\n---------- [Impediments]"),
        ⟨S "//\\/ ---------- [Review]\n//\\/ ---------- [Issues]\n//\\/ ---------- [Impediments]\nx = 1",
         [⟨none, none⟩], [⟨none, none⟩], []⟩) :=
  impediments_hard_stop cfgC (S "claude") (S "TS") [] false [] 7 3
    ⟨S "//\\/ ---------- [Review]\n//\\/ ---------- [Issues]\n//\\/ ---------- [Impediments]\nx = 1",
     [⟨none, none⟩], [⟨none, none⟩], []⟩
    (S "---------- [Review]\n---------- [Issues]\n---------- [Impediments]")
    (S "English") [] (S "x = 1")
    (by decide) (by decide) (by decide) (by decide) (by decide)
